import Mathlib

/-!
Verification of `deploy/update-addresses.py`.

The script reads `sys.argv`, validates the argument count, loads an
existing JSON address map from `addresses/<chainId>.json` when present,
merges the supplied (name, address) pairs into it, and rewrites the file
with `json.dump(addrs_dict, f, indent=2, sort_keys=True)` followed by a
single `"\n"`.

The embedding below models:
  * JSON values as the inductive `Json` (numbers restricted to integers;
    float literals, `NaN`/`Infinity` and lone-surrogate `\u` escapes are
    outside the model and count as parse failures),
  * the filesystem as a function from path strings to optional file
    contents,
  * `json.load` as the executable parser `parseJson`,
  * `json.dump(..., indent=2, sort_keys=True)` as `dumps`, where
    `sort_keys` is modelled by first sorting every object recursively
    (`canon`) and then encoding in order (`serInd`), which yields the same
    text as sorting during encoding,
  * the script itself as `run`.
-/

namespace UpdateAddresses

/-- JSON values as produced by Python's `json` module, with numbers
restricted to integers. Object fields keep their textual/insertion
order, mirroring Python `dict`. -/
inductive Json where
  | null : Json
  | bool : Bool → Json
  | num : Int → Json
  | str : String → Json
  | arr : List Json → Json
  | obj : List (String × Json) → Json

/-- Code-point comparison on characters, as Python compares `str`. -/
def charLt (a b : Char) : Bool := Nat.blt a.toNat b.toNat

/-- Lexicographic code-point order on character lists, as Python compares
`str`. -/
def listLt : List Char → List Char → Bool
  | [], [] => false
  | [], _ :: _ => true
  | _ :: _, [] => false
  | a :: as, b :: bs =>
    charLt a b || (if a = b then listLt as bs else false)

/-- Python's `<` on strings: lexicographic by code point. -/
def strLt (a b : String) : Bool := listLt a.data b.data

/-- `p`'s key is at most `q`'s key. Comparison used by
`sorted(dct.items())` inside `json.dump(..., sort_keys=True)`; keys are
unique in a `dict`, so only the key part matters. -/
def keyLe (p q : String × Json) : Bool := !(strLt q.1 p.1)

/-- Insert one pair into a key-sorted list of pairs. -/
def insertPair (p : String × Json) : List (String × Json) → List (String × Json)
  | [] => [p]
  | q :: l => if keyLe p q then p :: q :: l else q :: insertPair p l

/-- Sort an association list by key (insertion sort). With unique keys
this is the unique key-ascending reordering, hence the order produced by
Python's `sorted(dct.items())`. -/
def sortPairs : List (String × Json) → List (String × Json)
  | [] => []
  | p :: l => insertPair p (sortPairs l)

mutual
/-- Recursively sort every object of a JSON value by key. `json.dump`
with `sort_keys=True` emits exactly the text of the canonicalised
value encoded in order. -/
def canon : Json → Json
  | .arr xs => .arr (canonL xs)
  | .obj kvs => .obj (sortPairs (canonP kvs))
  | j => j

def canonL : List Json → List Json
  | [] => []
  | x :: xs => canon x :: canonL xs

def canonP : List (String × Json) → List (String × Json)
  | [] => []
  | (k, v) :: kvs => (k, canon v) :: canonP kvs
end

/-- The keys of an association list are pairwise distinct, as they are in
a Python `dict`. -/
def nodupKeys : List (String × Json) → Bool
  | [] => true
  | (k, _) :: rest => !(rest.any (fun q => decide (q.1 = k))) && nodupKeys rest

mutual
/-- Well-formedness: every object that occurs in the value has pairwise
distinct keys. Every value built by the script or returned by the parser
satisfies it. -/
def wfV : Json → Bool
  | .null => true
  | .bool _ => true
  | .num _ => true
  | .str _ => true
  | .arr xs => wfL xs
  | .obj kvs => nodupKeys kvs && wfP kvs

def wfL : List Json → Bool
  | [] => true
  | x :: xs => wfV x && wfL xs

def wfP : List (String × Json) → Bool
  | [] => true
  | (_, v) :: kvs => wfV v && wfP kvs
end

/-- Python `dict` lookup `d[k]` (as an option). -/
def lookup (kvs : List (String × Json)) (k : String) : Option Json :=
  match kvs with
  | [] => none
  | (k', v) :: rest => if k' = k then some v else lookup rest k

/-- Python `dict` assignment `d[k] = v`: replace in place when the key is
present, append otherwise. -/
def updAssoc (kvs : List (String × Json)) (k : String) (v : Json) :
    List (String × Json) :=
  match kvs with
  | [] => [(k, v)]
  | (k', v') :: rest =>
    if k' = k then (k', v) :: rest else (k', v') :: updAssoc rest k v

/-- Opening brace character. -/
def lbrace : Char := Char.ofNat 123

/-- Closing brace character. -/
def rbrace : Char := Char.ofNat 125

/-- The decimal digit `d` (`d < 10`) as a character. -/
def digitChar (d : Nat) : Char := Char.ofNat (48 + d)

/-- Decimal digits of `n`, most significant first, as Python `repr(int)`
prints a non-negative number. -/
def natDigits (n : Nat) : List Char :=
  if _h : n < 10 then [digitChar n]
  else natDigits (n / 10) ++ [digitChar (n % 10)]
termination_by n
decreasing_by exact Nat.div_lt_self (by omega) (by omega)

/-- Python `repr` of an `int`. -/
def intRepr (n : Int) : List Char :=
  if n < 0 then '-' :: natDigits n.natAbs else natDigits n.toNat

/-- Lowercase hexadecimal digit, as CPython's `'\u%04x'` formatting. -/
def hexDigitChar (d : Nat) : Char :=
  if d < 10 then Char.ofNat (48 + d) else Char.ofNat (87 + d)

/-- Four lowercase hex digits of `n < 0x10000`. -/
def hex4 (n : Nat) : List Char :=
  [hexDigitChar (n / 4096 % 16), hexDigitChar (n / 256 % 16),
   hexDigitChar (n / 16 % 16), hexDigitChar (n % 16)]

/-- CPython `json` string escaping with `ensure_ascii=True` (the
default used by the script): `"` and `\` get a backslash, the five
short control escapes are used, the remaining control characters and
every character outside `0x20..0x7e` become `\uXXXX`, astral characters
become a surrogate pair. -/
def encodeChar (c : Char) : List Char :=
  if c = '"' then ['\\', '"']
  else if c = '\\' then ['\\', '\\']
  else if c = Char.ofNat 8 then ['\\', 'b']
  else if c = Char.ofNat 9 then ['\\', 't']
  else if c = Char.ofNat 10 then ['\\', 'n']
  else if c = Char.ofNat 12 then ['\\', 'f']
  else if c = Char.ofNat 13 then ['\\', 'r']
  else if c.toNat < 32 then '\\' :: 'u' :: hex4 c.toNat
  else if c.toNat < 127 then [c]
  else if c.toNat < 65536 then '\\' :: 'u' :: hex4 c.toNat
  else
    '\\' :: 'u' :: hex4 (55296 + (c.toNat - 65536) / 1024) ++
      '\\' :: 'u' :: hex4 (56320 + (c.toNat - 65536) % 1024)

/-- Escape a whole character sequence. -/
def encodeChars : List Char → List Char
  | [] => []
  | c :: cs => encodeChar c ++ encodeChars cs

/-- A JSON string literal: quote, escaped content, quote. -/
def encodeString (s : String) : List Char :=
  '"' :: (encodeChars s.data ++ ['"'])

/-- `n` spaces. -/
def spaces (n : Nat) : List Char := List.replicate n ' '

/-- Newline followed by the indentation of nesting level `lvl` with
`indent=2`. -/
def nlInd (lvl : Nat) : List Char := '\n' :: spaces (2 * lvl)

mutual
/-- In-order text of a JSON value as `json.dump(..., indent=2)` writes
it, at nesting level `lvl`. Objects are emitted in list order;
`dumps` composes this with `canon` to model `sort_keys=True`. -/
def serInd : Json → Nat → List Char
  | .null, _ => ['n', 'u', 'l', 'l']
  | .bool true, _ => ['t', 'r', 'u', 'e']
  | .bool false, _ => ['f', 'a', 'l', 's', 'e']
  | .num n, _ => intRepr n
  | .str s, _ => encodeString s
  | .arr [], _ => ['[', ']']
  | .arr (x :: xs), lvl =>
    '[' :: (nlInd (lvl + 1) ++ serInd x (lvl + 1) ++ serItemsA xs (lvl + 1) ++
      nlInd lvl ++ [']'])
  | .obj [], _ => [lbrace, rbrace]
  | .obj ((k, v) :: kvs), lvl =>
    lbrace :: (nlInd (lvl + 1) ++ encodeString k ++ ':' :: ' ' :: serInd v (lvl + 1) ++
      serItemsO kvs (lvl + 1) ++ nlInd lvl ++ [rbrace])

/-- The remaining array items, each preceded by `",\n"` and indentation. -/
def serItemsA : List Json → Nat → List Char
  | [], _ => []
  | x :: xs, lvl => ',' :: (nlInd lvl ++ serInd x lvl ++ serItemsA xs lvl)

/-- The remaining object items, each preceded by `",\n"`, indentation,
the key and `": "`. -/
def serItemsO : List (String × Json) → Nat → List Char
  | [], _ => []
  | (k, v) :: kvs, lvl =>
    ',' :: (nlInd lvl ++ encodeString k ++ ':' :: ' ' :: serInd v lvl ++ serItemsO kvs lvl)
end

/-- `json.dump(j, f, indent=2, sort_keys=True)`: the text written for
`j` (without the script's extra trailing newline). -/
def dumps (j : Json) : List Char := serInd (canon j) 0

/-- JSON whitespace, as skipped by Python's parser. -/
def isWsChar (c : Char) : Bool :=
  c = ' ' || c = Char.ofNat 9 || c = Char.ofNat 10 || c = Char.ofNat 13

/-- Drop leading JSON whitespace. -/
def skipWs : List Char → List Char
  | [] => []
  | c :: cs => if isWsChar c then skipWs cs else c :: cs

/-- ASCII decimal digit test. -/
def isDigitChar (c : Char) : Bool := Nat.ble 48 c.toNat && Nat.ble c.toNat 57

/-- Value of one hexadecimal digit (both cases accepted, as in `\uXXXX`
escapes). -/
def hexVal (c : Char) : Option Nat :=
  if 48 ≤ c.toNat ∧ c.toNat ≤ 57 then some (c.toNat - 48)
  else if 97 ≤ c.toNat ∧ c.toNat ≤ 102 then some (c.toNat - 87)
  else if 65 ≤ c.toNat ∧ c.toNat ≤ 70 then some (c.toNat - 55)
  else none

/-- Prepend a decoded character to the result of parsing the rest of a
string literal. -/
def consStr (c : Char) (r : Option (List Char × List Char)) :
    Option (List Char × List Char) :=
  r.map (fun p => (c :: p.1, p.2))

mutual
/-- Parse the remainder of a JSON string literal (the opening quote
already consumed): decoded characters and the input after the closing
quote. Mirrors Python's strict scanner: raw control characters are
rejected, the eight short escapes and `\uXXXX` are decoded, surrogate
pairs are combined. Lone surrogates are outside the model. -/
def parseStrRest : List Char → Option (List Char × List Char)
  | [] => none
  | c :: cs =>
    if c = '"' then some ([], cs)
    else if c = '\\' then parseEsc cs
    else if c.toNat < 32 then none
    else consStr c (parseStrRest cs)

/-- Decode one escape sequence, the backslash already consumed. -/
def parseEsc : List Char → Option (List Char × List Char)
  | [] => none
  | e :: cs2 =>
    if e = '"' then consStr '"' (parseStrRest cs2)
    else if e = '\\' then consStr '\\' (parseStrRest cs2)
    else if e = '/' then consStr '/' (parseStrRest cs2)
    else if e = 'b' then consStr (Char.ofNat 8) (parseStrRest cs2)
    else if e = 'f' then consStr (Char.ofNat 12) (parseStrRest cs2)
    else if e = 'n' then consStr (Char.ofNat 10) (parseStrRest cs2)
    else if e = 'r' then consStr (Char.ofNat 13) (parseStrRest cs2)
    else if e = 't' then consStr (Char.ofNat 9) (parseStrRest cs2)
    else if e = 'u' then parseU cs2
    else none

/-- Decode a `\uXXXX` escape, `\u` already consumed. A high surrogate
must be followed by a low one; a lone low surrogate is outside the
model. -/
def parseU : List Char → Option (List Char × List Char)
  | h1 :: h2 :: h3 :: h4 :: cs3 =>
    match hexVal h1, hexVal h2, hexVal h3, hexVal h4 with
    | some a, some b, some c1, some d =>
      if 55296 ≤ 4096 * a + 256 * b + 16 * c1 + d ∧
          4096 * a + 256 * b + 16 * c1 + d < 56320 then
        parseLow (4096 * a + 256 * b + 16 * c1 + d) cs3
      else if 56320 ≤ 4096 * a + 256 * b + 16 * c1 + d ∧
          4096 * a + 256 * b + 16 * c1 + d < 57344 then none
      else consStr (Char.ofNat (4096 * a + 256 * b + 16 * c1 + d)) (parseStrRest cs3)
    | _, _, _, _ => none
  | _ => none

/-- Decode the low half of a surrogate pair, given the high half `n`. -/
def parseLow (n : Nat) : List Char → Option (List Char × List Char)
  | u1 :: u2 :: l1 :: l2 :: l3 :: l4 :: cs4 =>
    if u1 = '\\' ∧ u2 = 'u' then
      match hexVal l1, hexVal l2, hexVal l3, hexVal l4 with
      | some e1, some e2, some e3, some e4 =>
        if 56320 ≤ 4096 * e1 + 256 * e2 + 16 * e3 + e4 ∧
            4096 * e1 + 256 * e2 + 16 * e3 + e4 < 57344 then
          consStr (Char.ofNat (65536 + 1024 * (n - 55296) +
              (4096 * e1 + 256 * e2 + 16 * e3 + e4 - 56320)))
            (parseStrRest cs4)
        else none
      | _, _, _, _ => none
    else none
  | _ => none
end

/-- Split off a maximal run of decimal digits. -/
def takeDigits : List Char → List Char × List Char
  | [] => ([], [])
  | c :: cs =>
    if isDigitChar c then
      let r := takeDigits cs
      (c :: r.1, r.2)
    else ([], c :: cs)

/-- Numeric value of a digit run, most significant first. -/
def digitsVal (ds : List Char) : Nat :=
  ds.foldl (fun acc c => 10 * acc + (c.toNat - 48)) 0

/-- Parse an unsigned JSON integer: a digit run without a redundant
leading zero, not followed by a fraction or exponent (float literals are
outside the model and count as parse failures). -/
def parseUnsigned (cs : List Char) : Option (Nat × List Char) :=
  match takeDigits cs with
  | ([], _) => none
  | (d :: ds, rest) =>
    if d = '0' ∧ ds ≠ [] then none
    else
      match rest with
      | [] => some (digitsVal (d :: ds), [])
      | r :: _ =>
        if r = '.' ∨ r = 'e' ∨ r = 'E' then none
        else some (digitsVal (d :: ds), rest)

/-- Parse a JSON integer with optional leading minus. -/
def parseNum (cs : List Char) : Option (Json × List Char) :=
  match cs with
  | [] => none
  | c :: cs1 =>
    if c = '-' then
      (parseUnsigned cs1).map (fun p => (Json.num (-(p.1 : Int)), p.2))
    else
      (parseUnsigned (c :: cs1)).map (fun p => (Json.num (p.1 : Int), p.2))

mutual
/-- Parse one JSON value after skipping leading whitespace, returning
the value and the unconsumed input. `fuel` bounds the recursion depth
(Python's parser likewise fails on overly deep nesting). -/
def parseVal : Nat → List Char → Option (Json × List Char)
  | 0, _ => none
  | f + 1, cs =>
    match skipWs cs with
    | [] => none
    | c :: cs1 =>
      if c = lbrace then
        match skipWs cs1 with
        | [] => none
        | c2 :: cs2 =>
          if c2 = rbrace then some (.obj [], cs2)
          else parseItemsO f (c2 :: cs2) []
      else if c = '[' then
        match skipWs cs1 with
        | [] => none
        | c2 :: cs2 =>
          if c2 = ']' then some (.arr [], cs2)
          else parseItemsA f (c2 :: cs2) []
      else if c = '"' then
        (parseStrRest cs1).map (fun p => (Json.str (String.mk p.1), p.2))
      else if c = 'n' then
        match cs1 with
        | 'u' :: 'l' :: 'l' :: rest => some (.null, rest)
        | _ => none
      else if c = 't' then
        match cs1 with
        | 'r' :: 'u' :: 'e' :: rest => some (.bool true, rest)
        | _ => none
      else if c = 'f' then
        match cs1 with
        | 'a' :: 'l' :: 's' :: 'e' :: rest => some (.bool false, rest)
        | _ => none
      else if c = '-' ∨ isDigitChar c = true then parseNum (c :: cs1)
      else none

/-- Parse the items of a non-empty array, the opening bracket already
consumed, accumulating the items parsed so far. -/
def parseItemsA : Nat → List Char → List Json → Option (Json × List Char)
  | 0, _, _ => none
  | f + 1, cs, acc =>
    match parseVal f cs with
    | none => none
    | some (v, cs1) =>
      match skipWs cs1 with
      | [] => none
      | c :: cs2 =>
        if c = ',' then parseItemsA f cs2 (acc ++ [v])
        else if c = ']' then some (.arr (acc ++ [v]), cs2)
        else none

/-- Parse the members of a non-empty object, the opening brace already
consumed. Members are added with `updAssoc`, so a repeated key keeps its
first position and last value, as in a Python `dict`. -/
def parseItemsO : Nat → List Char → List (String × Json) →
    Option (Json × List Char)
  | 0, _, _ => none
  | f + 1, cs, acc =>
    match skipWs cs with
    | [] => none
    | c :: cs1 =>
      if c = '"' then
        match parseStrRest cs1 with
        | none => none
        | some (kchars, cs2) =>
          match skipWs cs2 with
          | [] => none
          | c2 :: cs3 =>
            if c2 = ':' then
              match parseVal f cs3 with
              | none => none
              | some (v, cs4) =>
                match skipWs cs4 with
                | [] => none
                | c3 :: cs5 =>
                  if c3 = ',' then
                    parseItemsO f cs5 (updAssoc acc (String.mk kchars) v)
                  else if c3 = rbrace then
                    some (.obj (updAssoc acc (String.mk kchars) v), cs5)
                  else none
            else none
      else none
end

/-- `json.load`: parse a whole document; trailing whitespace is allowed,
any other trailing text is an error. -/
def parseJson (s : String) : Option Json :=
  match parseVal (s.data.length + 1) s.data with
  | some (j, rest) => if skipWs rest = [] then some j else none
  | none => none

/-- A filesystem: file contents by path. -/
abbrev FS := String → Option String

/-- The ways the script can abort before writing. -/
inductive Err where
  | invalidArguments
  | malformedExistingFile
  | typeError
deriving DecidableEq

/-- The message of the exception the script raises for each abort.
Only the argument-count message is spelled out in the source; the other
two come from the `json` module and the interpreter. -/
def errMsg : Err → String
  | .invalidArguments =>
    "args must be chainid followed by pairs of contract name, contract address"
  | .malformedExistingFile => "existing file is not valid JSON"
  | .typeError => "loaded JSON value does not support item assignment"

/-- `file_path = 'addresses/' + chain_id + '.json'`. -/
def filePath (chainId : String) : String := "addresses/" ++ chainId ++ ".json"

/-- Lines 14-18 of the script plus the implicit requirement of line 20
that `addrs_dict` be a `dict`: absent file gives the empty map, an
unparsable file propagates the `json.load` error, and a parsable
non-object raises `TypeError` at the first loop assignment (the loop
runs at least once whenever validation passed). -/
def loadDict (fs : FS) (path : String) : Except Err (List (String × Json)) :=
  match fs path with
  | none => .ok []
  | some content =>
    match parseJson content with
    | none => .error .malformedExistingFile
    | some (.obj kvs) => .ok kvs
    | some _ => .error .typeError

/-- The merge loop `for i in list(range(2, num_args, 2)):
addrs_dict[sys.argv[i]] = sys.argv[i+1]`. -/
def mergeLoop (argv : List String) (d0 : List (String × Json)) :
    List (String × Json) :=
  (List.range' 2 ((argv.length - 1) / 2) 2).foldl
    (fun d i => updAssoc d (argv.getD i "") (Json.str (argv.getD (i + 1) ""))) d0

/-- The whole script on an argument vector (`argv.head?` is the program
name, as in `sys.argv`) and a filesystem: the filesystem afterwards and
the abort, if any. A successful run writes the merged map serialized
with `indent=2, sort_keys=True` plus one trailing newline; every abort
happens before the write and leaves the filesystem as it was. -/
def run (argv : List String) (fs : FS) : FS × Option Err :=
  let numArgs := argv.length
  if numArgs % 2 ≠ 0 ∨ numArgs < 4 then (fs, some .invalidArguments)
  else
    let path := filePath (argv.getD 1 "")
    match loadDict fs path with
    | .error e => (fs, some e)
    | .ok d0 =>
      let d := mergeLoop argv d0
      let out := String.mk (dumps (Json.obj d) ++ ['\n'])
      (fun p => if p = path then some out else fs p, none)

/-- The trailing arguments chunked into (name, address) pairs, as the
loop reads `sys.argv[i], sys.argv[i+1]`. -/
def toPairs : List String → List (String × String)
  | a :: b :: rest => (a, b) :: toPairs rest
  | _ => []

/-- The merge step at the level of pairs: `d[name] = address` for each
pair in order. -/
def applyPairs (d : List (String × Json)) (ps : List (String × String)) :
    List (String × Json) :=
  ps.foldl (fun d p => updAssoc d p.1 (Json.str p.2)) d

/-- The last address assigned to `k` by a pair list, if any. -/
def lastAssign : List (String × String) → String → Option String
  | [], _ => none
  | p :: ps, k =>
    match lastAssign ps k with
    | some a => some a
    | none => if p.1 = k then some p.2 else none

/-- Split a character list at each `/`. -/
def splitSlash : List Char → List (List Char)
  | [] => [[]]
  | c :: cs =>
    if c = '/' then [] :: splitSlash cs
    else
      match splitSlash cs with
      | [] => [[c]]
      | seg :: rest => (c :: seg) :: rest

/-- POSIX-style resolution of `.` and `..` segments, to read a path the
way the operating system does. -/
def normalizePath (s : String) : String :=
  String.intercalate "/"
    (((splitSlash s.data).map String.mk).foldl
      (fun acc seg =>
        if seg = "" ∨ seg = "." then acc
        else if seg = ".." then acc.dropLast
        else acc ++ [seg]) [])

/-- Filesystems reachable from no file at all by successful runs of the
script. -/
inductive Reachable : FS → Prop where
  | base : Reachable (fun _ => none)
  | step {fs fs' : FS} {argv : List String} :
      Reachable fs → run argv fs = (fs', none) → Reachable fs'

/-! ## Order lemmas for the key comparison -/

theorem charLt_iff {a b : Char} : charLt a b = true ↔ a.toNat < b.toNat := by
  simp [charLt]

theorem char_toNat_inj {a b : Char} (h : a.toNat = b.toNat) : a = b := by
  apply Char.ext
  apply UInt32.ext
  simpa [Char.toNat, UInt32.toNat] using h

theorem charLt_irrefl (a : Char) : charLt a a = false := by
  rw [← Bool.not_eq_true, charLt_iff]
  omega

theorem listLt_irrefl : ∀ l : List Char, listLt l l = false
  | [] => rfl
  | a :: as => by
    simp [listLt, listLt_irrefl as, charLt_irrefl]

theorem listLt_eq_of_not_lt :
    ∀ {x y : List Char}, listLt x y = false → listLt y x = false → x = y
  | [], [], _, _ => rfl
  | [], _ :: _, h, _ => by simp [listLt] at h
  | _ :: _, [], _, h => by simp [listLt] at h
  | a :: as, b :: bs, h, h' => by
    simp only [listLt, Bool.or_eq_false_iff] at h h'
    by_cases hab : a = b
    · subst hab
      simp only [if_pos rfl] at h h'
      exact congrArg (a :: ·) (listLt_eq_of_not_lt h.2 h'.2)
    · exfalso
      have h1 : charLt a b = false := h.1
      have h2 : charLt b a = false := h'.1
      rw [Bool.eq_false_iff] at h1 h2
      have hn1 : ¬ a.toNat < b.toNat := fun hlt => h1 (charLt_iff.mpr hlt)
      have hn2 : ¬ b.toNat < a.toNat := fun hlt => h2 (charLt_iff.mpr hlt)
      exact hab (char_toNat_inj (by omega))

theorem listLt_trans :
    ∀ {x y z : List Char}, listLt x y = true → listLt y z = true → listLt x z = true
  | [], _ :: _, [], _, h' => by simp [listLt] at h'
  | [], _ :: _, _ :: _, _, _ => by simp [listLt]
  | _ :: _, [], _, h, _ => by simp [listLt] at h
  | _ :: _, _ :: _, [], _, h' => by simp [listLt] at h'
  | a :: as, b :: bs, c :: cs, h, h' => by
    simp only [listLt, Bool.or_eq_true] at h h' ⊢
    by_cases hab : a = b
    · subst hab
      have htl : listLt as bs = true := by
        rcases h with h | h
        · rw [charLt_irrefl] at h
          exact absurd h (by simp)
        · simpa using h
      by_cases hbc : a = c
      · subst hbc
        have htl' : listLt bs cs = true := by
          rcases h' with h' | h'
          · rw [charLt_irrefl] at h'
            exact absurd h' (by simp)
          · simpa using h'
        exact Or.inr (by simpa using listLt_trans htl htl')
      · have hc : charLt a c = true := by
          rcases h' with h' | h'
          · exact h'
          · rw [if_neg hbc] at h'
            exact absurd h' (by simp)
        exact Or.inl hc
    · have hab' : charLt a b = true := by
        rcases h with h | h
        · exact h
        · rw [if_neg hab] at h
          exact absurd h (by simp)
      by_cases hbc : b = c
      · exact Or.inl (hbc ▸ hab')
      · have hbc' : charLt b c = true := by
          rcases h' with h' | h'
          · exact h'
          · rw [if_neg hbc] at h'
            exact absurd h' (by simp)
        refine Or.inl (charLt_iff.mpr ?_)
        have := charLt_iff.mp hab'
        have := charLt_iff.mp hbc'
        omega

theorem listLt_asymm {x y : List Char} (h : listLt x y = true) :
    listLt y x = false := by
  by_contra hc
  rw [Bool.not_eq_false] at hc
  have := listLt_trans h hc
  rw [listLt_irrefl] at this
  exact absurd this (by simp)

theorem strLt_irrefl (a : String) : strLt a a = false := listLt_irrefl _

theorem strLt_eq_of_not_lt {a b : String} (h : strLt a b = false)
    (h' : strLt b a = false) : a = b := by
  have : a.data = b.data := listLt_eq_of_not_lt h h'
  exact congrArg String.mk this

theorem strLt_trans {a b c : String} (h : strLt a b = true)
    (h' : strLt b c = true) : strLt a c = true := listLt_trans h h'

theorem strLt_asymm {a b : String} (h : strLt a b = true) :
    strLt b a = false := listLt_asymm h

theorem keyLe_total (p q : String × Json) : keyLe p q = true ∨ keyLe q p = true := by
  unfold keyLe
  by_cases h : strLt q.1 p.1 = true
  · exact Or.inr (by simp [strLt_asymm h])
  · exact Or.inl (by simp [Bool.eq_false_iff.mpr h])

theorem keyLe_trans {p q r : String × Json} (h : keyLe p q = true)
    (h' : keyLe q r = true) : keyLe p r = true := by
  unfold keyLe at h h' ⊢
  simp only [Bool.not_eq_true'] at h h' ⊢
  by_contra hc
  rw [Bool.not_eq_false] at hc
  by_cases hqr : strLt q.1 r.1 = true
  · rw [strLt_trans hqr hc] at h
    exact absurd h (by simp)
  · have : q.1 = r.1 :=
      strLt_eq_of_not_lt (Bool.eq_false_iff.mpr hqr) h'
    rw [this, hc] at h
    exact absurd h (by simp)

/-! ## Sorting and association list lemmas -/

/-- The sortedness predicate used for object keys. -/
def PairsSorted (l : List (String × Json)) : Prop :=
  l.Pairwise (fun a b => keyLe a b = true)

theorem insertPair_perm (p : String × Json) :
    ∀ l, (insertPair p l).Perm (p :: l)
  | [] => .refl _
  | q :: l => by
    unfold insertPair
    by_cases h : keyLe p q = true
    · rw [if_pos h]
    · rw [if_neg h]
      exact ((insertPair_perm p l).cons q).trans (List.Perm.swap p q l)

theorem sortPairs_perm : ∀ l, (sortPairs l).Perm l
  | [] => .refl _
  | p :: l => (insertPair_perm p _).trans ((sortPairs_perm l).cons p)

theorem insertPair_sorted {p : String × Json} {l : List (String × Json)}
    (h : PairsSorted l) : PairsSorted (insertPair p l) := by
  induction l with
  | nil => simp [insertPair, PairsSorted]
  | cons q l ih =>
    rw [PairsSorted, List.pairwise_cons] at h
    unfold insertPair
    by_cases hpq : keyLe p q = true
    · rw [if_pos hpq]
      refine List.pairwise_cons.mpr ⟨?_, List.pairwise_cons.mpr h⟩
      intro b hb
      rcases List.mem_cons.mp hb with rfl | hb
      · exact hpq
      · exact keyLe_trans hpq (h.1 b hb)
    · rw [if_neg hpq]
      have hqp : keyLe q p = true := (keyLe_total p q).resolve_left hpq
      refine List.pairwise_cons.mpr ⟨?_, ih h.2⟩
      intro b hb
      have hb' : b ∈ p :: l := (insertPair_perm p l).subset hb
      rcases List.mem_cons.mp hb' with rfl | hb'
      · exact hqp
      · exact h.1 b hb'

theorem sortPairs_sorted : ∀ l, PairsSorted (sortPairs l)
  | [] => List.Pairwise.nil
  | p :: l => insertPair_sorted (sortPairs_sorted l)

theorem sortPairs_of_sorted : ∀ {l}, PairsSorted l → sortPairs l = l
  | [], _ => rfl
  | p :: l, h => by
    rw [PairsSorted, List.pairwise_cons] at h
    show insertPair p (sortPairs l) = p :: l
    rw [sortPairs_of_sorted h.2]
    cases l with
    | nil => rfl
    | cons q l => exact if_pos (h.1 q (by simp))

theorem nodupKeys_iff : ∀ {l : List (String × Json)},
    nodupKeys l = true ↔ (l.map Prod.fst).Nodup
  | [] => by simp [nodupKeys]
  | (k, v) :: l => by
    rw [nodupKeys]
    simp only [Bool.and_eq_true, Bool.not_eq_true', List.any_eq_false,
      decide_eq_true_eq, List.map_cons, List.nodup_cons,
      nodupKeys_iff (l := l), List.mem_map]
    constructor
    · rintro ⟨h1, h2⟩
      exact ⟨fun ⟨q, hq, he⟩ => h1 q hq he, h2⟩
    · rintro ⟨h1, h2⟩
      exact ⟨fun q hq he => h1 ⟨q, hq, he⟩, h2⟩

theorem nodupKeys_of_perm {l l' : List (String × Json)} (h : l.Perm l')
    (hn : nodupKeys l = true) : nodupKeys l' = true :=
  nodupKeys_iff.mpr ((nodupKeys_iff.mp hn).perm (h.map Prod.fst))

theorem nodupKeys_sortPairs {l : List (String × Json)}
    (h : nodupKeys l = true) : nodupKeys (sortPairs l) = true :=
  nodupKeys_of_perm (sortPairs_perm l).symm h

theorem lookup_eq_none_iff : ∀ {l : List (String × Json)} {k : String},
    lookup l k = none ↔ k ∉ l.map Prod.fst
  | [], k => by simp [lookup]
  | (k', v) :: l, k => by
    rw [lookup]
    by_cases h : k' = k
    · subst h
      simp
    · simp only [if_neg h, List.map_cons, List.mem_cons,
        lookup_eq_none_iff (l := l)]
      constructor
      · intro hn hm
        rcases hm with hm | hm
        · exact h hm.symm
        · exact hn hm
      · intro hn
        exact fun hm => hn (Or.inr hm)

theorem nodupKeys_cons_iff {kp : String} {vp : Json} {l : List (String × Json)} :
    nodupKeys ((kp, vp) :: l) = true ↔
      kp ∉ l.map Prod.fst ∧ nodupKeys l = true := by
  rw [nodupKeys]
  simp only [Bool.and_eq_true, Bool.not_eq_true', List.any_eq_false,
    decide_eq_true_eq, List.mem_map]
  constructor
  · rintro ⟨h1, h2⟩
    exact ⟨fun ⟨q, hq, he⟩ => h1 q hq he, h2⟩
  · rintro ⟨h1, h2⟩
    exact ⟨fun q hq he => h1 ⟨q, hq, he⟩, h2⟩

theorem lookup_insertPair {kp : String} {vp : Json} :
    ∀ {l : List (String × Json)} {k : String},
      nodupKeys ((kp, vp) :: l) = true →
      lookup (insertPair (kp, vp) l) k = lookup ((kp, vp) :: l) k
  | [], k, _ => rfl
  | (kq, vq) :: l, k, h => by
    obtain ⟨hp, hq, hl⟩ : kp ∉ ((kq, vq) :: l).map Prod.fst ∧
        kq ∉ l.map Prod.fst ∧ nodupKeys l = true := by
      have h1 := nodupKeys_cons_iff.mp h
      exact ⟨h1.1, (nodupKeys_cons_iff.mp h1.2).1, (nodupKeys_cons_iff.mp h1.2).2⟩
    have hpq : kp ≠ kq := by
      intro he
      exact hp (by simp [he])
    have hn' : nodupKeys ((kp, vp) :: l) = true := by
      refine nodupKeys_cons_iff.mpr ⟨?_, hl⟩
      intro hm
      exact hp (by simp [hm])
    unfold insertPair
    by_cases hle : keyLe (kp, vp) (kq, vq) = true
    · rw [if_pos hle]
    · rw [if_neg hle]
      show lookup ((kq, vq) :: insertPair (kp, vp) l) k = _
      by_cases hk : kq = k
      · subst hk
        simp [lookup, hpq]
      · have h2 : lookup ((kq, vq) :: insertPair (kp, vp) l) k
            = lookup (insertPair (kp, vp) l) k := by
          rw [lookup, if_neg hk]
        have h3 : lookup ((kp, vp) :: (kq, vq) :: l) k
            = lookup ((kp, vp) :: l) k := by
          simp [lookup, hk]
        rw [h2, lookup_insertPair hn', h3]

theorem lookup_sortPairs :
    ∀ {l : List (String × Json)}, nodupKeys l = true →
      ∀ k, lookup (sortPairs l) k = lookup l k
  | [], _, _ => rfl
  | (kp, vp) :: l, h, k => by
    have h' := nodupKeys_cons_iff.mp h
    have hns : nodupKeys ((kp, vp) :: sortPairs l) = true := by
      refine nodupKeys_cons_iff.mpr ⟨?_, nodupKeys_sortPairs h'.2⟩
      intro hm
      exact h'.1 (((sortPairs_perm l).map Prod.fst).subset hm)
    show lookup (insertPair (kp, vp) (sortPairs l)) k = _
    rw [lookup_insertPair hns, lookup, lookup]
    by_cases hk : kp = k
    · rw [if_pos hk, if_pos hk]
    · rw [if_neg hk, if_neg hk, lookup_sortPairs h'.2]

/-! ## Update, canonicalisation and merge lemmas -/

theorem lookup_updAssoc :
    ∀ (d : List (String × Json)) (k : String) (v : Json) (k' : String),
      lookup (updAssoc d k v) k' = if k = k' then some v else lookup d k'
  | [], k, v, k' => by
    by_cases h : k = k'
    · simp [updAssoc, lookup, h]
    · simp [updAssoc, lookup, h]
  | (kq, vq) :: rest, k, v, k' => by
    unfold updAssoc
    by_cases hq : kq = k
    · subst hq
      by_cases h : kq = k'
      · simp [lookup, h]
      · simp [lookup, h]
    · rw [if_neg hq]
      by_cases h : kq = k'
      · subst h
        have hk : k ≠ kq := fun he => hq he.symm
        simp [lookup, hk]
      · simp only [lookup, if_neg h, lookup_updAssoc rest k v k']

theorem map_fst_updAssoc :
    ∀ (d : List (String × Json)) (k : String) (v : Json),
      (updAssoc d k v).map Prod.fst =
        if k ∈ d.map Prod.fst then d.map Prod.fst else d.map Prod.fst ++ [k]
  | [], k, v => by simp [updAssoc]
  | (kq, vq) :: rest, k, v => by
    unfold updAssoc
    by_cases hq : kq = k
    · subst hq
      simp
    · have hne : ¬ k = kq := fun he => hq he.symm
      rw [if_neg hq]
      simp only [List.map_cons, map_fst_updAssoc rest k v, List.mem_cons]
      by_cases hm : k ∈ rest.map Prod.fst
      · simp [hm, hne]
      · simp [hm, hne]

theorem nodupKeys_updAssoc {d : List (String × Json)}
    (h : nodupKeys d = true) (k : String) (v : Json) :
    nodupKeys (updAssoc d k v) = true := by
  rw [nodupKeys_iff, map_fst_updAssoc]
  by_cases hm : k ∈ d.map Prod.fst
  · simpa [hm] using nodupKeys_iff.mp h
  · rw [if_neg hm]
    rw [List.nodup_append]
    refine ⟨nodupKeys_iff.mp h, List.nodup_singleton k, ?_⟩
    intro a ha hb
    rw [List.mem_singleton] at hb
    subst hb
    exact hm ha

/-- Every value of the association list is a JSON string (the shape the
script itself always writes). -/
def allStr (l : List (String × Json)) : Prop :=
  ∀ p ∈ l, ∃ a, p.2 = Json.str a

theorem allStr_updAssoc {d : List (String × Json)} (h : allStr d)
    (k : String) (a : String) : allStr (updAssoc d k (Json.str a)) := by
  induction d with
  | nil =>
    intro p hp
    rcases List.mem_singleton.mp hp with rfl
    exact ⟨a, rfl⟩
  | cons q rest ih =>
    obtain ⟨kq, vq⟩ := q
    intro p hp
    unfold updAssoc at hp
    by_cases hq : kq = k
    · rw [if_pos hq] at hp
      rcases List.mem_cons.mp hp with rfl | hp
      · exact ⟨a, rfl⟩
      · exact h p (List.mem_cons_of_mem _ hp)
    · rw [if_neg hq] at hp
      rcases List.mem_cons.mp hp with rfl | hp
      · exact h (kq, vq) (List.mem_cons_self _ _)
      · exact ih (fun q hq => h q (List.mem_cons_of_mem _ hq)) p hp

theorem wfP_iff : ∀ {l : List (String × Json)},
    wfP l = true ↔ ∀ p ∈ l, wfV p.2 = true
  | [] => by simp [wfP]
  | (k, v) :: l => by
    rw [wfP]
    simp only [Bool.and_eq_true, wfP_iff (l := l)]
    constructor
    · rintro ⟨h1, h2⟩ p hp
      rcases List.mem_cons.mp hp with rfl | hp
      · exact h1
      · exact h2 p hp
    · intro h
      exact ⟨h (k, v) (List.mem_cons_self _ _),
        fun p hp => h p (List.mem_cons_of_mem _ hp)⟩

theorem wfL_iff : ∀ {l : List Json},
    wfL l = true ↔ ∀ x ∈ l, wfV x = true
  | [] => by simp [wfL]
  | x :: l => by
    rw [wfL]
    simp only [Bool.and_eq_true, wfL_iff (l := l)]
    constructor
    · rintro ⟨h1, h2⟩ y hy
      rcases List.mem_cons.mp hy with rfl | hy
      · exact h1
      · exact h2 y hy
    · intro h
      exact ⟨h x (List.mem_cons_self _ _),
        fun y hy => h y (List.mem_cons_of_mem _ hy)⟩

theorem canonP_eq_map : ∀ l : List (String × Json),
    canonP l = l.map (fun p => (p.1, canon p.2))
  | [] => rfl
  | (k, v) :: l => by
    rw [canonP, canonP_eq_map l, List.map_cons]

theorem lookup_canonP (l : List (String × Json)) (k : String) :
    lookup (canonP l) k = (lookup l k).map canon := by
  induction l with
  | nil => rfl
  | cons q rest ih =>
    obtain ⟨kq, vq⟩ := q
    rw [canonP]
    by_cases h : kq = k
    · simp [lookup, h]
    · simp [lookup, h, ih]

theorem map_fst_canonP (l : List (String × Json)) :
    (canonP l).map Prod.fst = l.map Prod.fst := by
  rw [canonP_eq_map, List.map_map]
  rfl

theorem nodupKeys_canonP {l : List (String × Json)}
    (h : nodupKeys l = true) : nodupKeys (canonP l) = true := by
  rw [nodupKeys_iff, map_fst_canonP]
  exact nodupKeys_iff.mp h

theorem insertPair_map_canonV (p : String × Json) :
    ∀ l : List (String × Json),
      insertPair (p.1, canon p.2) (l.map (fun q => (q.1, canon q.2))) =
        (insertPair p l).map (fun q => (q.1, canon q.2))
  | [] => rfl
  | q :: l => by
    have hk : keyLe (p.1, canon p.2) (q.1, canon q.2) = keyLe p q := rfl
    by_cases h : keyLe p q = true
    · simp [insertPair, hk, h]
    · simp [insertPair, hk, h, insertPair_map_canonV p l]

theorem sortPairs_map_canonV :
    ∀ l : List (String × Json),
      sortPairs (l.map (fun q => (q.1, canon q.2))) =
        (sortPairs l).map (fun q => (q.1, canon q.2))
  | [] => rfl
  | p :: l => by
    rw [List.map_cons, sortPairs, sortPairs, sortPairs_map_canonV l]
    exact insertPair_map_canonV p (sortPairs l)

theorem canonP_sortPairs (l : List (String × Json)) :
    canonP (sortPairs l) = sortPairs (canonP l) := by
  rw [canonP_eq_map, canonP_eq_map, sortPairs_map_canonV]

mutual
theorem canon_idem : ∀ j : Json, canon (canon j) = canon j
  | .null => rfl
  | .bool _ => rfl
  | .num _ => rfl
  | .str _ => rfl
  | .arr xs => by rw [canon, canon, canonL_idem xs]
  | .obj kvs => by
    rw [canon, canon, canonP_sortPairs, canonP_idem kvs,
      sortPairs_of_sorted (sortPairs_sorted (canonP kvs))]

theorem canonL_idem : ∀ xs : List Json, canonL (canonL xs) = canonL xs
  | [] => rfl
  | x :: xs => by rw [canonL, canonL, canon_idem x, canonL_idem xs]

theorem canonP_idem : ∀ l : List (String × Json), canonP (canonP l) = canonP l
  | [] => rfl
  | (k, v) :: l => by rw [canonP, canonP, canon_idem v, canonP_idem l]
end

mutual
theorem wfV_canon : ∀ {j : Json}, wfV j = true → wfV (canon j) = true
  | .null, h => h
  | .bool _, h => h
  | .num _, h => h
  | .str _, h => h
  | .arr xs, h => by
    rw [canon, wfV]
    exact wfL_canon (by rw [wfV] at h; exact h)
  | .obj kvs, h => by
    rw [wfV, Bool.and_eq_true] at h
    rw [canon, wfV, Bool.and_eq_true]
    refine ⟨nodupKeys_sortPairs (nodupKeys_canonP h.1), ?_⟩
    rw [wfP_iff]
    intro p hp
    exact wfP_iff.mp (wfP_canon h.2) p ((sortPairs_perm (canonP kvs)).subset hp)

theorem wfL_canon : ∀ {xs : List Json}, wfL xs = true → wfL (canonL xs) = true
  | [], h => h
  | x :: xs, h => by
    rw [wfL, Bool.and_eq_true] at h
    rw [canonL, wfL, Bool.and_eq_true]
    exact ⟨wfV_canon h.1, wfL_canon h.2⟩

theorem wfP_canon : ∀ {l : List (String × Json)}, wfP l = true → wfP (canonP l) = true
  | [], h => h
  | (k, v) :: l, h => by
    rw [wfP, Bool.and_eq_true] at h
    rw [canonP, wfP, Bool.and_eq_true]
    exact ⟨wfV_canon h.1, wfP_canon h.2⟩
end

theorem allStr_perm_subset {l l' : List (String × Json)}
    (h : ∀ p ∈ l', p ∈ l) (ha : allStr l) : allStr l' :=
  fun p hp => ha p (h p hp)

theorem allStr_canonP {l : List (String × Json)} (h : allStr l) :
    allStr (canonP l) := by
  rw [canonP_eq_map]
  intro p hp
  rcases List.mem_map.mp hp with ⟨q, hq, rfl⟩
  rcases h q hq with ⟨a, ha⟩
  exact ⟨a, by rw [ha]; rfl⟩

/-! ## The merge step at the level of pairs -/

theorem lookup_applyPairs :
    ∀ (ps : List (String × String)) (d : List (String × Json)) (k : String),
      lookup (applyPairs d ps) k =
        match lastAssign ps k with
        | some a => some (Json.str a)
        | none => lookup d k
  | [], d, k => rfl
  | p :: ps, d, k => by
    have hfold : applyPairs d (p :: ps) =
        applyPairs (updAssoc d p.1 (Json.str p.2)) ps := rfl
    rw [hfold, lookup_applyPairs ps _ k, lastAssign]
    cases h : lastAssign ps k with
    | some a => rfl
    | none =>
      rw [lookup_updAssoc]
      by_cases hk : p.1 = k
      · simp [hk]
      · have : ¬ (p.1 = k) := hk
        simp [this]

theorem nodupKeys_applyPairs :
    ∀ (ps : List (String × String)) {d : List (String × Json)},
      nodupKeys d = true → nodupKeys (applyPairs d ps) = true
  | [], _, h => h
  | p :: ps, d, h =>
    nodupKeys_applyPairs ps (nodupKeys_updAssoc h p.1 (Json.str p.2))

theorem allStr_applyPairs :
    ∀ (ps : List (String × String)) {d : List (String × Json)},
      allStr d → allStr (applyPairs d ps)
  | [], _, h => h
  | p :: ps, d, h =>
    allStr_applyPairs ps (allStr_updAssoc h p.1 p.2)

theorem wfP_updAssoc :
    ∀ {d : List (String × Json)}, wfP d = true → ∀ (k : String) {v : Json},
      wfV v = true → wfP (updAssoc d k v) = true
  | [], _, k, v, hv => by
    rw [updAssoc, wfP, wfP]
    simp [hv]
  | (kq, vq) :: rest, h, k, v, hv => by
    rw [wfP, Bool.and_eq_true] at h
    unfold updAssoc
    by_cases hq : kq = k
    · rw [if_pos hq, wfP, Bool.and_eq_true]
      exact ⟨hv, h.2⟩
    · rw [if_neg hq, wfP, Bool.and_eq_true]
      exact ⟨h.1, wfP_updAssoc h.2 k hv⟩

theorem wfP_applyPairs :
    ∀ (ps : List (String × String)) {d : List (String × Json)},
      wfP d = true → wfP (applyPairs d ps) = true
  | [], _, h => h
  | p :: ps, d, h =>
    wfP_applyPairs ps (wfP_updAssoc h p.1 (by rw [wfV]))

/-! ## The index loop equals the fold over pairs -/

theorem getD_append_length (pre : List String) (x : String) (t : List String) :
    (pre ++ x :: t).getD pre.length "" = x := by
  have h : (pre ++ x :: t)[pre.length]? = some x := by
    rw [List.getElem?_append_right (Nat.le_refl _)]
    simp
  rw [List.getD_eq_getElem?_getD, h]
  rfl

theorem getD_append_length_succ (pre : List String) (x y : String)
    (t : List String) : (pre ++ x :: y :: t).getD (pre.length + 1) "" = y := by
  have h : (pre ++ x :: y :: t)[pre.length + 1]? = some y := by
    rw [List.getElem?_append_right (by omega)]
    have h1 : pre.length + 1 - pre.length = 1 := by omega
    rw [h1]
    simp
  rw [List.getD_eq_getElem?_getD, h]
  rfl

theorem mergeLoop_aux :
    ∀ (rest pre : List String) (d : List (String × Json)),
      rest.length % 2 = 0 →
      (List.range' pre.length (rest.length / 2) 2).foldl
        (fun d i => updAssoc d ((pre ++ rest).getD i "")
          (Json.str ((pre ++ rest).getD (i + 1) ""))) d
      = applyPairs d (toPairs rest)
  | [], pre, d, _ => rfl
  | [a], pre, d, h => by simp at h
  | a :: b :: rest, pre, d, h => by
    have hlen : (a :: b :: rest).length / 2 = rest.length / 2 + 1 := by
      simp only [List.length_cons]
      omega
    have hrange : List.range' pre.length (rest.length / 2 + 1) 2 =
        pre.length :: List.range' (pre.length + 2) (rest.length / 2) 2 := by
      rfl
    rw [hlen, hrange, List.foldl_cons, getD_append_length,
      getD_append_length_succ]
    have hassoc : pre ++ a :: b :: rest = (pre ++ [a, b]) ++ rest := by simp
    have hlen2 : pre.length + 2 = (pre ++ [a, b]).length := by simp
    have hmod : rest.length % 2 = 0 := by
      simp only [List.length_cons] at h
      omega
    rw [hassoc, hlen2, mergeLoop_aux rest (pre ++ [a, b]) _ hmod]
    rfl

theorem mergeLoop_eq_applyPairs (prog c : String) (rest : List String)
    (d : List (String × Json)) (h : rest.length % 2 = 0) :
    mergeLoop (prog :: c :: rest) d = applyPairs d (toPairs rest) := by
  unfold mergeLoop
  have hl : ((prog :: c :: rest).length - 1) / 2 = rest.length / 2 := by
    simp only [List.length_cons]
    omega
  have hpre : (2 : Nat) = ([prog, c] : List String).length := rfl
  rw [hl, hpre]
  exact mergeLoop_aux rest [prog, c] d h

/-! ## Character and whitespace facts -/

theorem char_toNat_ofNat {n : Nat} (h : n.isValidChar) :
    (Char.ofNat n).toNat = n := by
  rw [Char.ofNat, dif_pos h]
  rfl

theorem char_toNat_ofNat_lt {n : Nat} (h : n < 55296) :
    (Char.ofNat n).toNat = n := char_toNat_ofNat (Or.inl h)

theorem char_valid_toNat (c : Char) :
    c.toNat < 55296 ∨ (57343 < c.toNat ∧ c.toNat < 1114112) := by
  rcases c.valid with h | h
  · exact Or.inl h
  · exact Or.inr ⟨h.1, h.2⟩

theorem mk_data (s : String) : String.mk s.data = s := rfl

/-- Only whitespace characters. -/
def WsOnly (w : List Char) : Prop := ∀ c ∈ w, isWsChar c = true

theorem skipWs_append {w : List Char} (h : WsOnly w) (cs : List Char) :
    skipWs (w ++ cs) = skipWs cs := by
  induction w with
  | nil => rfl
  | cons c w ih =>
    rw [List.cons_append, skipWs, if_pos (h c (List.mem_cons_self _ _))]
    exact ih (fun c hc => h c (List.mem_cons_of_mem _ hc))

theorem skipWs_not_ws {c : Char} (h : isWsChar c = false) (cs : List Char) :
    skipWs (c :: cs) = c :: cs := by
  rw [skipWs, if_neg (by rw [h]; exact fun hc => nomatch hc)]

theorem wsOnly_nil : WsOnly [] := fun c hc => nomatch hc

theorem wsOnly_nlInd (lvl : Nat) : WsOnly (nlInd lvl) := by
  intro c hc
  rcases List.mem_cons.mp hc with rfl | hc
  · rfl
  · rw [List.eq_of_mem_replicate hc]
    rfl

theorem wsOnly_space : WsOnly [' '] := by
  intro c hc
  rcases List.mem_singleton.mp hc with rfl
  rfl

/-! ## Decimal digits round trip -/

theorem digitChar_toNat {d : Nat} (h : d < 10) :
    (digitChar d).toNat = 48 + d :=
  char_toNat_ofNat_lt (by omega)

theorem isDigitChar_iff {c : Char} :
    isDigitChar c = true ↔ 48 ≤ c.toNat ∧ c.toNat ≤ 57 := by
  simp [isDigitChar]

theorem isDigitChar_digitChar {d : Nat} (h : d < 10) :
    isDigitChar (digitChar d) = true := by
  rw [isDigitChar_iff, digitChar_toNat h]
  omega

theorem natDigits_ne_nil (n : Nat) : natDigits n ≠ [] := by
  rw [natDigits]
  by_cases h : n < 10
  · rw [dif_pos h]
    exact fun hc => nomatch hc
  · rw [dif_neg h]
    simp

theorem natDigits_digits (n : Nat) : ∀ c ∈ natDigits n, isDigitChar c = true := by
  induction n using Nat.strong_induction_on with
  | _ n ih =>
    rw [natDigits]
    by_cases h : n < 10
    · rw [dif_pos h]
      intro c hc
      rcases List.mem_singleton.mp hc with rfl
      exact isDigitChar_digitChar h
    · rw [dif_neg h]
      intro c hc
      rcases List.mem_append.mp hc with hc | hc
      · exact ih (n / 10) (Nat.div_lt_self (by omega) (by omega)) c hc
      · rcases List.mem_singleton.mp hc with rfl
        exact isDigitChar_digitChar (Nat.mod_lt _ (by omega))

theorem digitsVal_append_one (l : List Char) (c : Char) :
    digitsVal (l ++ [c]) = 10 * digitsVal l + (c.toNat - 48) := by
  unfold digitsVal
  rw [List.foldl_append]
  rfl

theorem digitsVal_natDigits (n : Nat) : digitsVal (natDigits n) = n := by
  induction n using Nat.strong_induction_on with
  | _ n ih =>
    rw [natDigits]
    by_cases h : n < 10
    · rw [dif_pos h]
      show 10 * 0 + ((digitChar n).toNat - 48) = n
      rw [digitChar_toNat h]
      omega
    · rw [dif_neg h, digitsVal_append_one,
        ih (n / 10) (Nat.div_lt_self (by omega) (by omega)),
        digitChar_toNat (Nat.mod_lt _ (by omega))]
      omega

theorem natDigits_head_pos : ∀ n : Nat, 1 ≤ n → ∀ d ds,
    natDigits n = d :: ds → d ≠ '0' := by
  intro n
  induction n using Nat.strong_induction_on with
  | _ n ih =>
    intro hn d ds heq
    rw [natDigits] at heq
    by_cases h : n < 10
    · rw [dif_pos h] at heq
      injection heq with h1 h2
      subst h1
      intro hc
      have hn1 : (digitChar n).toNat = 48 + n := digitChar_toNat h
      rw [hc] at hn1
      have : (48 : Nat) = 48 + n := hn1
      omega
    · rw [dif_neg h] at heq
      obtain ⟨d', ds', hds⟩ : ∃ d' ds', natDigits (n / 10) = d' :: ds' := by
        cases hnd : natDigits (n / 10) with
        | nil => exact absurd hnd (natDigits_ne_nil _)
        | cons a l => exact ⟨a, l, rfl⟩
      rw [hds, List.cons_append] at heq
      injection heq with h1 h2
      subst h1
      exact ih (n / 10) (Nat.div_lt_self (by omega) (by omega)) (by omega) _ _ hds

theorem natDigits_no_leading_zero {n : Nat} {d : Char} {ds : List Char}
    (heq : natDigits n = d :: ds) (hne : ds ≠ []) : d ≠ '0' := by
  by_cases h : n < 10
  · exfalso
    rw [natDigits, dif_pos h] at heq
    injection heq with h1 h2
    exact hne h2.symm
  · exact natDigits_head_pos n (by omega) d ds heq

/-- The next character cannot extend the token just parsed: it is not a
digit and not a fraction/exponent mark. Every separator the serializer
emits after a value satisfies this. -/
def okAfter : List Char → Prop
  | [] => True
  | c :: _ => isDigitChar c = false ∧ c ≠ '.' ∧ c ≠ 'e' ∧ c ≠ 'E'

theorem takeDigits_append {ds : List Char} (hds : ∀ c ∈ ds, isDigitChar c = true) :
    ∀ {rest : List Char}, (∀ c cs, rest = c :: cs → isDigitChar c = false) →
      takeDigits (ds ++ rest) = (ds, rest) := by
  induction ds with
  | nil =>
    intro rest hrest
    cases rest with
    | nil => rfl
    | cons c cs =>
      rw [List.nil_append, takeDigits, hrest c cs rfl]
      simp
  | cons d ds ih =>
    intro rest hrest
    rw [List.cons_append, takeDigits,
      if_pos (hds d (List.mem_cons_self _ _)),
      ih (fun c hc => hds c (List.mem_cons_of_mem _ hc)) hrest]

theorem parseUnsigned_natDigits (n : Nat) {rest : List Char}
    (hrest : okAfter rest) :
    parseUnsigned (natDigits n ++ rest) = some (n, rest) := by
  obtain ⟨d, ds, hds⟩ : ∃ d ds, natDigits n = d :: ds := by
    cases hnd : natDigits n with
    | nil => exact absurd hnd (natDigits_ne_nil _)
    | cons a l => exact ⟨a, l, rfl⟩
  have htake : takeDigits (natDigits n ++ rest) = (natDigits n, rest) := by
    refine takeDigits_append (natDigits_digits n) ?_
    intro c cs hc
    rw [hc] at hrest
    exact hrest.1
  rw [parseUnsigned, htake, hds]
  have hlz : ¬ (d = '0' ∧ ds ≠ []) := by
    rintro ⟨rfl, hne⟩
    exact natDigits_no_leading_zero hds hne rfl
  show (if d = '0' ∧ ds ≠ [] then none
    else match rest with
      | [] => some (digitsVal (d :: ds), ([] : List Char))
      | r :: _ => if r = '.' ∨ r = 'e' ∨ r = 'E' then none
          else some (digitsVal (d :: ds), rest)) = some (n, rest)
  rw [if_neg hlz]
  cases rest with
  | nil =>
    rw [← hds, digitsVal_natDigits]
  | cons r rs =>
    rw [okAfter] at hrest
    have : ¬ (r = '.' ∨ r = 'e' ∨ r = 'E') := by
      rintro (h | h | h)
      · exact hrest.2.1 h
      · exact hrest.2.2.1 h
      · exact hrest.2.2.2 h
    show (if r = '.' ∨ r = 'e' ∨ r = 'E' then none
      else some (digitsVal (d :: ds), r :: rs)) = some (n, r :: rs)
    rw [if_neg this, ← hds, digitsVal_natDigits]

theorem parseNum_intRepr (m : Int) {rest : List Char} (hrest : okAfter rest) :
    parseNum (intRepr m ++ rest) = some (Json.num m, rest) := by
  unfold intRepr
  by_cases hm : m < 0
  · rw [if_pos hm, List.cons_append]
    show (parseUnsigned (natDigits m.natAbs ++ rest)).map
      (fun p => (Json.num (-(p.1 : Int)), p.2)) = some (Json.num m, rest)
    rw [parseUnsigned_natDigits _ hrest]
    show some (Json.num (-((m.natAbs : Nat) : Int)), rest) = some (Json.num m, rest)
    have hv : -((m.natAbs : Nat) : Int) = m := by omega
    rw [hv]
  · rw [if_neg hm]
    obtain ⟨d, ds, hds⟩ : ∃ d ds, natDigits m.toNat = d :: ds := by
      cases hnd : natDigits m.toNat with
      | nil => exact absurd hnd (natDigits_ne_nil _)
      | cons a l => exact ⟨a, l, rfl⟩
    have hd : isDigitChar d = true :=
      natDigits_digits _ d (by rw [hds]; exact List.mem_cons_self _ _)
    have hdm : d ≠ '-' := by
      intro he
      rw [isDigitChar_iff] at hd
      rw [he] at hd
      have h45 : ('-').toNat = 45 := rfl
      omega
    rw [hds, List.cons_append]
    show (if d = '-' then
        (parseUnsigned (ds ++ rest)).map (fun p => (Json.num (-(p.1 : Int)), p.2))
      else
        (parseUnsigned (d :: (ds ++ rest))).map
          (fun p => (Json.num ((p.1 : Int)), p.2))) = some (Json.num m, rest)
    rw [if_neg hdm, ← List.cons_append, ← hds, parseUnsigned_natDigits _ hrest]
    show some (Json.num ((m.toNat : Nat) : Int), rest) = some (Json.num m, rest)
    have hv : ((m.toNat : Nat) : Int) = m := by omega
    rw [hv]

/-! ## String escaping round trip -/

theorem hexVal_hexDigitChar {d : Nat} (h : d < 16) :
    hexVal (hexDigitChar d) = some d := by
  have hd10 : d < 10 ∨ (10 ≤ d ∧ d < 16) := by omega
  rcases hd10 with hd | hd
  · have hc : hexDigitChar d = Char.ofNat (48 + d) := if_pos hd
    have ht : (hexDigitChar d).toNat = 48 + d := by
      rw [hc]
      exact char_toNat_ofNat_lt (by omega)
    unfold hexVal
    rw [ht, if_pos (by omega)]
    congr 1
    omega
  · have hc : hexDigitChar d = Char.ofNat (87 + d) := if_neg (by omega)
    have ht : (hexDigitChar d).toNat = 87 + d := by
      rw [hc]
      exact char_toNat_ofNat_lt (by omega)
    unfold hexVal
    rw [ht, if_neg (by omega), if_pos (by omega)]
    congr 1
    omega

theorem parseStrRest_cons (c : Char) (cs : List Char) :
    parseStrRest (c :: cs) = if c = '"' then some ([], cs)
      else if c = '\\' then parseEsc cs
      else if c.toNat < 32 then none
      else consStr c (parseStrRest cs) := by
  rw [parseStrRest]

theorem hex4_cons (n : Nat) (tail : List Char) :
    hex4 n ++ tail = hexDigitChar (n / 4096 % 16) :: hexDigitChar (n / 256 % 16) ::
      hexDigitChar (n / 16 % 16) :: hexDigitChar (n % 16) :: tail := rfl

theorem parseU_hex4 (n : Nat) (tail : List Char) :
    parseU (hex4 n ++ tail) =
      if 55296 ≤ n % 65536 ∧ n % 65536 < 56320 then parseLow (n % 65536) tail
      else if 56320 ≤ n % 65536 ∧ n % 65536 < 57344 then none
      else consStr (Char.ofNat (n % 65536)) (parseStrRest tail) := by
  rw [hex4_cons, parseU]
  simp only [hexVal_hexDigitChar (d := n / 4096 % 16) (by omega),
    hexVal_hexDigitChar (d := n / 256 % 16) (by omega),
    hexVal_hexDigitChar (d := n / 16 % 16) (by omega),
    hexVal_hexDigitChar (d := n % 16) (by omega)]
  have hn : 4096 * (n / 4096 % 16) + 256 * (n / 256 % 16) +
      16 * (n / 16 % 16) + n % 16 = n % 65536 := by omega
  rw [hn]

theorem parseStrRest_u {n : Nat} (h1 : n < 65536) (h2 : n < 55296 ∨ 57343 < n)
    (tail : List Char) :
    parseStrRest ('\\' :: 'u' :: (hex4 n ++ tail)) =
      consStr (Char.ofNat n) (parseStrRest tail) := by
  rw [parseStrRest_cons, if_neg (by decide), if_pos rfl, parseEsc,
    if_neg (by decide), if_neg (by decide), if_neg (by decide),
    if_neg (by decide), if_neg (by decide), if_neg (by decide),
    if_neg (by decide), if_neg (by decide), if_pos rfl, parseU_hex4]
  have hm : n % 65536 = n := Nat.mod_eq_of_lt h1
  rw [hm, if_neg (by omega), if_neg (by omega)]

theorem parseLow_hex4 (n m : Nat) (tail : List Char) :
    parseLow n ('\\' :: 'u' :: (hex4 m ++ tail)) =
      if 56320 ≤ m % 65536 ∧ m % 65536 < 57344 then
        consStr (Char.ofNat (65536 + 1024 * (n - 55296) + (m % 65536 - 56320)))
          (parseStrRest tail)
      else none := by
  rw [hex4_cons, parseLow, if_pos ⟨rfl, rfl⟩]
  simp only [hexVal_hexDigitChar (d := m / 4096 % 16) (by omega),
    hexVal_hexDigitChar (d := m / 256 % 16) (by omega),
    hexVal_hexDigitChar (d := m / 16 % 16) (by omega),
    hexVal_hexDigitChar (d := m % 16) (by omega)]
  have hm : 4096 * (m / 4096 % 16) + 256 * (m / 256 % 16) +
      16 * (m / 16 % 16) + m % 16 = m % 65536 := by omega
  rw [hm]

theorem parseStrRest_pair {v : Nat} (h1 : 65536 ≤ v) (h2 : v < 1114112)
    (tail : List Char) :
    parseStrRest (('\\' :: 'u' :: hex4 (55296 + (v - 65536) / 1024) ++
      '\\' :: 'u' :: hex4 (56320 + (v - 65536) % 1024)) ++ tail) =
    consStr (Char.ofNat v) (parseStrRest tail) := by
  have hassoc : ('\\' :: 'u' :: hex4 (55296 + (v - 65536) / 1024) ++
      '\\' :: 'u' :: hex4 (56320 + (v - 65536) % 1024)) ++ tail
      = '\\' :: 'u' :: (hex4 (55296 + (v - 65536) / 1024) ++
        ('\\' :: 'u' :: (hex4 (56320 + (v - 65536) % 1024) ++ tail))) := by
    simp
  rw [hassoc, parseStrRest_cons, if_neg (by decide), if_pos rfl, parseEsc,
    if_neg (by decide), if_neg (by decide), if_neg (by decide),
    if_neg (by decide), if_neg (by decide), if_neg (by decide),
    if_neg (by decide), if_neg (by decide), if_pos rfl, parseU_hex4]
  have hhi : (55296 + (v - 65536) / 1024) % 65536 = 55296 + (v - 65536) / 1024 :=
    Nat.mod_eq_of_lt (by omega)
  rw [hhi, if_pos (by omega), parseLow_hex4]
  have hlo : (56320 + (v - 65536) % 1024) % 65536 = 56320 + (v - 65536) % 1024 :=
    Nat.mod_eq_of_lt (by omega)
  rw [hlo, if_pos (by omega)]
  have hv : 65536 + 1024 * (55296 + (v - 65536) / 1024 - 55296) +
      (56320 + (v - 65536) % 1024 - 56320) = v := by omega
  rw [hv]

theorem parseStrRest_encodeChar (c : Char) (tail : List Char) :
    parseStrRest (encodeChar c ++ tail) = consStr c (parseStrRest tail) := by
  unfold encodeChar
  by_cases h1 : c = '"'
  · rw [if_pos h1, h1]
    rw [show (['\\', '"'] : List Char) ++ tail = '\\' :: '"' :: tail from rfl,
      parseStrRest_cons, if_neg (by decide), if_pos rfl, parseEsc, if_pos rfl]
  · rw [if_neg h1]
    by_cases h2 : c = '\\'
    · rw [if_pos h2, h2]
      rw [show (['\\', '\\'] : List Char) ++ tail = '\\' :: '\\' :: tail from rfl,
        parseStrRest_cons, if_neg (by decide), if_pos rfl, parseEsc,
        if_neg (by decide), if_pos rfl]
    · rw [if_neg h2]
      by_cases h3 : c = Char.ofNat 8
      · rw [if_pos h3, h3]
        rw [show (['\\', 'b'] : List Char) ++ tail = '\\' :: 'b' :: tail from rfl,
          parseStrRest_cons, if_neg (by decide), if_pos rfl, parseEsc,
          if_neg (by decide), if_neg (by decide), if_neg (by decide), if_pos rfl]
      · rw [if_neg h3]
        by_cases h4 : c = Char.ofNat 9
        · rw [if_pos h4, h4]
          rw [show (['\\', 't'] : List Char) ++ tail = '\\' :: 't' :: tail from rfl,
            parseStrRest_cons, if_neg (by decide), if_pos rfl, parseEsc,
            if_neg (by decide), if_neg (by decide), if_neg (by decide),
            if_neg (by decide), if_neg (by decide), if_neg (by decide),
            if_neg (by decide), if_pos rfl]
        · rw [if_neg h4]
          by_cases h5 : c = Char.ofNat 10
          · rw [if_pos h5, h5]
            rw [show (['\\', 'n'] : List Char) ++ tail = '\\' :: 'n' :: tail from rfl,
              parseStrRest_cons, if_neg (by decide), if_pos rfl, parseEsc,
              if_neg (by decide), if_neg (by decide), if_neg (by decide),
              if_neg (by decide), if_neg (by decide), if_pos rfl]
          · rw [if_neg h5]
            by_cases h6 : c = Char.ofNat 12
            · rw [if_pos h6, h6]
              rw [show (['\\', 'f'] : List Char) ++ tail = '\\' :: 'f' :: tail from rfl,
                parseStrRest_cons, if_neg (by decide), if_pos rfl, parseEsc,
                if_neg (by decide), if_neg (by decide), if_neg (by decide),
                if_neg (by decide), if_pos rfl]
            · rw [if_neg h6]
              by_cases h7 : c = Char.ofNat 13
              · rw [if_pos h7, h7]
                rw [show (['\\', 'r'] : List Char) ++ tail = '\\' :: 'r' :: tail from rfl,
                  parseStrRest_cons, if_neg (by decide), if_pos rfl, parseEsc,
                  if_neg (by decide), if_neg (by decide), if_neg (by decide),
                  if_neg (by decide), if_neg (by decide), if_neg (by decide),
                  if_pos rfl]
              · rw [if_neg h7]
                by_cases h8 : c.toNat < 32
                · rw [if_pos h8]
                  have he : ('\\' :: 'u' :: hex4 c.toNat) ++ tail
                      = '\\' :: 'u' :: (hex4 c.toNat ++ tail) := by simp
                  rw [he, parseStrRest_u (by omega) (by omega), Char.ofNat_toNat]
                · rw [if_neg h8]
                  by_cases h9 : c.toNat < 127
                  · rw [if_pos h9]
                    rw [show ([c] : List Char) ++ tail = c :: tail from rfl,
                      parseStrRest_cons, if_neg h1, if_neg h2, if_neg h8]
                  · rw [if_neg h9]
                    by_cases h10 : c.toNat < 65536
                    · rw [if_pos h10]
                      have hval := char_valid_toNat c
                      have he : ('\\' :: 'u' :: hex4 c.toNat) ++ tail
                          = '\\' :: 'u' :: (hex4 c.toNat ++ tail) := by simp
                      rw [he, parseStrRest_u (by omega) (by omega), Char.ofNat_toNat]
                    · rw [if_neg h10]
                      have hval := char_valid_toNat c
                      rw [parseStrRest_pair (by omega) (by omega), Char.ofNat_toNat]

theorem parseStrRest_encodeChars (s : List Char) (tail : List Char) :
    parseStrRest (encodeChars s ++ '"' :: tail) = some (s, tail) := by
  induction s with
  | nil =>
    rw [show encodeChars [] ++ '"' :: tail = '"' :: tail from rfl,
      parseStrRest_cons, if_pos rfl]
  | cons c cs ih =>
    rw [encodeChars, List.append_assoc, parseStrRest_encodeChar, ih]
    rfl

/-! ## Fuel cost of parsing a serialized value -/

mutual
/-- Fuel needed by `parseVal` on the serialized form of a value. -/
def costV : Json → Nat
  | .null => 1
  | .bool _ => 1
  | .num _ => 1
  | .str _ => 1
  | .arr [] => 1
  | .arr (x :: xs) => 1 + costL (x :: xs)
  | .obj [] => 1
  | .obj (p :: ps) => 1 + costP (p :: ps)

/-- Fuel needed by `parseItemsA` on the serialized remaining items. -/
def costL : List Json → Nat
  | [] => 0
  | x :: xs => 1 + costV x + costL xs

/-- Fuel needed by `parseItemsO` on the serialized remaining members. -/
def costP : List (String × Json) → Nat
  | [] => 0
  | (_, v) :: kvs => 1 + costV v + costP kvs
end

theorem costV_pos (j : Json) : 1 ≤ costV j := by
  cases j with
  | arr xs => cases xs <;> (simp only [costV]; omega)
  | obj kvs =>
    cases kvs with
    | nil => simp only [costV]; omega
    | cons p ps =>
      obtain ⟨k, v⟩ := p
      simp only [costV]
      omega
  | null => simp only [costV]; omega
  | bool b => simp only [costV]; omega
  | num n => simp only [costV]; omega
  | str s => simp only [costV]; omega

/-! ## First characters of serialized values -/

theorem char_ne_of_toNat {c d : Char} (h : c.toNat ≠ d.toNat) : c ≠ d :=
  fun he => h (he ▸ rfl)

theorem isWsChar_false_of_toNat {c : Char} (h1 : c.toNat ≠ 32)
    (h2 : c.toNat ≠ 9) (h3 : c.toNat ≠ 10) (h4 : c.toNat ≠ 13) :
    isWsChar c = false := by
  unfold isWsChar
  have e1 : (c = ' ') = False := by
    simp [char_ne_of_toNat (show c.toNat ≠ (' ').toNat from h1)]
  have e2 : (c = Char.ofNat 9) = False := by
    simp [char_ne_of_toNat (show c.toNat ≠ (Char.ofNat 9).toNat by
      rw [char_toNat_ofNat_lt (by omega)]; exact h2)]
  have e3 : (c = Char.ofNat 10) = False := by
    simp [char_ne_of_toNat (show c.toNat ≠ (Char.ofNat 10).toNat by
      rw [char_toNat_ofNat_lt (by omega)]; exact h3)]
  have e4 : (c = Char.ofNat 13) = False := by
    simp [char_ne_of_toNat (show c.toNat ≠ (Char.ofNat 13).toNat by
      rw [char_toNat_ofNat_lt (by omega)]; exact h4)]
  simp [e1, e2, e3, e4]

/-- The serialized form of a value is nonempty, and its first character
is neither whitespace nor a closing bracket or brace. -/
theorem serInd_head (j : Json) (lvl : Nat) :
    ∃ c cs, serInd j lvl = c :: cs ∧ isWsChar c = false ∧
      c ≠ ']' ∧ c ≠ rbrace := by
  cases j with
  | null => refine ⟨'n', _, rfl, ?_, ?_, ?_⟩ <;> decide
  | bool b =>
    cases b
    · refine ⟨'f', _, rfl, ?_, ?_, ?_⟩ <;> decide
    · refine ⟨'t', _, rfl, ?_, ?_, ?_⟩ <;> decide
  | num n =>
    show ∃ c cs, intRepr n = c :: cs ∧ _
    unfold intRepr
    by_cases hn : n < 0
    · rw [if_pos hn]
      exact ⟨'-', _, rfl, by decide, by decide, by decide⟩
    · rw [if_neg hn]
      obtain ⟨d, ds, hds⟩ : ∃ d ds, natDigits n.toNat = d :: ds := by
        cases hnd : natDigits n.toNat with
        | nil => exact absurd hnd (natDigits_ne_nil _)
        | cons a l => exact ⟨a, l, rfl⟩
      have hd : isDigitChar d = true :=
        natDigits_digits _ d (by rw [hds]; exact List.mem_cons_self _ _)
      rw [isDigitChar_iff] at hd
      refine ⟨d, ds, hds, isWsChar_false_of_toNat (by omega) (by omega)
        (by omega) (by omega), ?_, ?_⟩
      · refine char_ne_of_toNat ?_
        have : (']').toNat = 93 := rfl
        omega
      · refine char_ne_of_toNat ?_
        have : rbrace.toNat = 125 := rfl
        omega
  | str s => exact ⟨'"', _, rfl, by decide, by decide, by decide⟩
  | arr xs =>
    cases xs with
    | nil => exact ⟨'[', _, rfl, by decide, by decide, by decide⟩
    | cons x xs => exact ⟨'[', _, rfl, by decide, by decide, by decide⟩
  | obj kvs =>
    cases kvs with
    | nil => exact ⟨lbrace, _, rfl, by decide, by decide, by decide⟩
    | cons p ps =>
      obtain ⟨k, v⟩ := p
      exact ⟨lbrace, _, rfl, by decide, by decide, by decide⟩

/-! ## Parser step lemmas -/

theorem parseVal_ws {f : Nat} {w : List Char} (h : WsOnly w) (cs : List Char) :
    parseVal (f + 1) (w ++ cs) = parseVal (f + 1) cs := by
  rw [parseVal, parseVal, skipWs_append h]

theorem parseItemsO_ws {f : Nat} {w : List Char} (h : WsOnly w)
    (cs : List Char) (acc : List (String × Json)) :
    parseItemsO (f + 1) (w ++ cs) acc = parseItemsO (f + 1) cs acc := by
  rw [parseItemsO, parseItemsO, skipWs_append h]

theorem parseVal_null (f : Nat) (rest : List Char) :
    parseVal (f + 1) ('n' :: 'u' :: 'l' :: 'l' :: rest) = some (.null, rest) := rfl

theorem parseVal_true (f : Nat) (rest : List Char) :
    parseVal (f + 1) ('t' :: 'r' :: 'u' :: 'e' :: rest) =
      some (.bool true, rest) := rfl

theorem parseVal_false (f : Nat) (rest : List Char) :
    parseVal (f + 1) ('f' :: 'a' :: 'l' :: 's' :: 'e' :: rest) =
      some (.bool false, rest) := rfl

theorem parseVal_stepStr (f : Nat) (cs1 : List Char) :
    parseVal (f + 1) ('"' :: cs1) =
      (parseStrRest cs1).map (fun p => (Json.str (String.mk p.1), p.2)) := rfl

theorem parseVal_stepArr (f : Nat) (cs1 : List Char) :
    parseVal (f + 1) ('[' :: cs1) =
      match skipWs cs1 with
      | [] => none
      | c2 :: cs2 =>
        if c2 = ']' then some (.arr [], cs2) else parseItemsA f (c2 :: cs2) [] := rfl

theorem parseVal_stepObj (f : Nat) (cs1 : List Char) :
    parseVal (f + 1) (lbrace :: cs1) =
      match skipWs cs1 with
      | [] => none
      | c2 :: cs2 =>
        if c2 = rbrace then some (.obj [], cs2)
        else parseItemsO f (c2 :: cs2) [] := by
  rw [parseVal, skipWs_not_ws (by decide)]
  simp

theorem parseVal_stepNum (f : Nat) {c : Char} {cs1 : List Char}
    (hws : isWsChar c = false) (hbrace : c ≠ lbrace) (hbrk : c ≠ '[')
    (hq : c ≠ '"') (hn : c ≠ 'n') (ht : c ≠ 't') (hf : c ≠ 'f') :
    parseVal (f + 1) (c :: cs1) =
      (if c = '-' ∨ isDigitChar c = true then parseNum (c :: cs1) else none) := by
  rw [parseVal, skipWs_not_ws hws]
  simp only [if_neg hbrace, if_neg hbrk, if_neg hq, if_neg hn, if_neg ht, if_neg hf]

theorem updAssoc_append {k : String} {acc : List (String × Json)}
    (h : k ∉ acc.map Prod.fst) (v : Json) :
    updAssoc acc k v = acc ++ [(k, v)] := by
  induction acc with
  | nil => rfl
  | cons q rest ih =>
    obtain ⟨kq, vq⟩ := q
    have hne : kq ≠ k := by
      intro he
      exact h (by simp [he])
    rw [show updAssoc ((kq, vq) :: rest) k v
        = (kq, vq) :: updAssoc rest k v from if_neg hne]
    rw [ih (fun hm => h (by simp [hm]))]
    rfl


/-! ## The parser recovers every well-formed serialized value -/

theorem okAfter_serItemsA (xs : List Json) (lvl L : Nat) (rest : List Char) :
    okAfter (serItemsA xs lvl ++ (nlInd L ++ (']' :: rest))) := by
  cases xs with
  | nil => exact ⟨by decide, by decide, by decide, by decide⟩
  | cons y ys => exact ⟨by decide, by decide, by decide, by decide⟩

theorem okAfter_serItemsO (kvs : List (String × Json)) (lvl L : Nat)
    (rest : List Char) :
    okAfter (serItemsO kvs lvl ++ (nlInd L ++ (rbrace :: rest))) := by
  cases kvs with
  | nil => exact ⟨by decide, by decide, by decide, by decide⟩
  | cons p ps =>
    obtain ⟨k2, v2⟩ := p
    exact ⟨by decide, by decide, by decide, by decide⟩

theorem numHead_facts {c : Char} (h : c = '-' ∨ isDigitChar c = true) :
    isWsChar c = false ∧ c ≠ lbrace ∧ c ≠ '[' ∧ c ≠ '"' ∧
      c ≠ 'n' ∧ c ≠ 't' ∧ c ≠ 'f' := by
  have hv : c.toNat = 45 ∨ (48 ≤ c.toNat ∧ c.toNat ≤ 57) := by
    rcases h with rfl | h
    · exact Or.inl rfl
    · exact Or.inr (isDigitChar_iff.mp h)
  have e1 : lbrace.toNat = 123 := rfl
  have e2 : ('[').toNat = 91 := rfl
  have e3 : ('"').toNat = 34 := rfl
  have e4 : ('n').toNat = 110 := rfl
  have e5 : ('t').toNat = 116 := rfl
  have e6 : ('f').toNat = 102 := rfl
  exact ⟨isWsChar_false_of_toNat (by omega) (by omega) (by omega) (by omega),
    char_ne_of_toNat (by omega), char_ne_of_toNat (by omega),
    char_ne_of_toNat (by omega), char_ne_of_toNat (by omega),
    char_ne_of_toNat (by omega), char_ne_of_toNat (by omega)⟩

theorem intRepr_head (n : Int) :
    ∃ c cs, intRepr n = c :: cs ∧ (c = '-' ∨ isDigitChar c = true) := by
  unfold intRepr
  by_cases hn : n < 0
  · rw [if_pos hn]
    exact ⟨'-', _, rfl, Or.inl rfl⟩
  · rw [if_neg hn]
    obtain ⟨d, ds, hds⟩ : ∃ d ds, natDigits n.toNat = d :: ds := by
      cases hnd : natDigits n.toNat with
      | nil => exact absurd hnd (natDigits_ne_nil _)
      | cons a l => exact ⟨a, l, rfl⟩
    exact ⟨d, ds, hds, Or.inr (natDigits_digits _ d
      (by rw [hds]; exact List.mem_cons_self _ _))⟩

theorem nodup_head_not_mem {acc : List (String × Json)} {k : String}
    {v : Json} {kvs : List (String × Json)}
    (h : nodupKeys (acc ++ (k, v) :: kvs) = true) :
    k ∉ acc.map Prod.fst := by
  rw [nodupKeys_iff] at h
  rw [List.map_append] at h
  have hd := (List.nodup_append.mp h).2.2
  intro hm
  exact hd hm (by simp)

theorem parse_serInd : ∀ f : Nat,
    (∀ (w : List Char) (j : Json) (lvl : Nat) (rest : List Char), WsOnly w →
      wfV j = true → okAfter rest → costV j ≤ f →
      parseVal f (w ++ (serInd j lvl ++ rest)) = some (j, rest)) ∧
    (∀ (w : List Char) (x : Json) (xs : List Json) (lvl L : Nat)
      (acc : List Json) (rest : List Char), WsOnly w →
      wfV x = true → wfL xs = true → costL (x :: xs) ≤ f →
      parseItemsA f
        (w ++ (serInd x lvl ++ (serItemsA xs lvl ++ (nlInd L ++ (']' :: rest))))) acc =
        some (.arr (acc ++ x :: xs), rest)) ∧
    (∀ (w : List Char) (k : String) (v : Json) (kvs : List (String × Json))
      (lvl L : Nat) (acc : List (String × Json)) (rest : List Char), WsOnly w →
      wfV v = true → wfP kvs = true →
      nodupKeys (acc ++ (k, v) :: kvs) = true → costP ((k, v) :: kvs) ≤ f →
      parseItemsO f
        (w ++ (encodeString k ++ (':' :: ' ' :: (serInd v lvl ++
          (serItemsO kvs lvl ++ (nlInd L ++ (rbrace :: rest))))))) acc =
        some (.obj (acc ++ (k, v) :: kvs), rest)) := by
  intro f
  induction f with
  | zero =>
    refine ⟨?_, ?_, ?_⟩
    · intro w j lvl rest _ _ _ hcost
      exact absurd hcost (by have := costV_pos j; omega)
    · intro w x xs lvl L acc rest _ _ _ hcost
      refine absurd hcost ?_
      simp only [costL]
      have := costV_pos x
      omega
    · intro w k v kvs lvl L acc rest _ _ _ _ hcost
      refine absurd hcost ?_
      simp only [costP]
      have := costV_pos v
      omega
  | succ f IH =>
    obtain ⟨IHP, IHA, IHO⟩ := IH
    refine ⟨?_, ?_, ?_⟩
    · -- a single value
      intro w j lvl rest hw hwf hok hcost
      rw [parseVal_ws hw]
      cases j with
      | null => exact parseVal_null f rest
      | bool b =>
        cases b with
        | true => exact parseVal_true f rest
        | false => exact parseVal_false f rest
      | num n =>
        obtain ⟨c, cs0, heq, hnum⟩ := intRepr_head n
        obtain ⟨hws0, hb1, hb2, hb3, hb4, hb5, hb6⟩ := numHead_facts hnum
        show parseVal (f + 1) (intRepr n ++ rest) = some (.num n, rest)
        rw [heq, List.cons_append,
          parseVal_stepNum f hws0 hb1 hb2 hb3 hb4 hb5 hb6, if_pos hnum,
          ← List.cons_append, ← heq]
        exact parseNum_intRepr n hok
      | str s =>
        show parseVal (f + 1)
          ('"' :: ((encodeChars s.data ++ ['"']) ++ rest)) = some (.str s, rest)
        rw [parseVal_stepStr, List.append_assoc,
          List.singleton_append, parseStrRest_encodeChars]
        show some (Json.str (String.mk s.data), rest) = some (.str s, rest)
        rw [mk_data]
      | arr xs =>
        cases xs with
        | nil =>
          show parseVal (f + 1) ('[' :: (']' :: rest)) = some (.arr [], rest)
          rw [parseVal_stepArr, skipWs_not_ws (by decide)]
          simp
        | cons x xs =>
          rw [wfV, wfL, Bool.and_eq_true] at hwf
          simp only [costV] at hcost
          have hs : serInd (.arr (x :: xs)) lvl ++ rest
              = '[' :: (nlInd (lvl + 1) ++ (serInd x (lvl + 1) ++
                (serItemsA xs (lvl + 1) ++ (nlInd lvl ++ (']' :: rest))))) := by
            show ('[' :: (nlInd (lvl + 1) ++ serInd x (lvl + 1) ++
              serItemsA xs (lvl + 1) ++ nlInd lvl ++ [']'])) ++ rest = _
            simp
          rw [hs, parseVal_stepArr]
          obtain ⟨c0, cs0, heq0, hws0, hnb, _⟩ := serInd_head x (lvl + 1)
          have hsw : skipWs (nlInd (lvl + 1) ++ (serInd x (lvl + 1) ++
              (serItemsA xs (lvl + 1) ++ (nlInd lvl ++ (']' :: rest)))))
              = c0 :: (cs0 ++ (serItemsA xs (lvl + 1) ++
                (nlInd lvl ++ (']' :: rest)))) := by
            rw [skipWs_append (wsOnly_nlInd _), heq0, List.cons_append,
              skipWs_not_ws hws0]
          rw [hsw]
          simp only [if_neg hnb]
          have hgoal := IHA [] x xs (lvl + 1) lvl [] rest wsOnly_nil hwf.1 hwf.2
            (by omega)
          rw [List.nil_append] at hgoal
          rw [show c0 :: (cs0 ++ (serItemsA xs (lvl + 1) ++
              (nlInd lvl ++ (']' :: rest))))
            = serInd x (lvl + 1) ++ (serItemsA xs (lvl + 1) ++
              (nlInd lvl ++ (']' :: rest))) by rw [heq0]; rfl]
          rw [hgoal]
          rfl
      | obj kvs =>
        cases kvs with
        | nil =>
          show parseVal (f + 1) (lbrace :: (rbrace :: rest)) = some (.obj [], rest)
          rw [parseVal_stepObj, skipWs_not_ws (by decide)]
          simp
        | cons p ps =>
          obtain ⟨k, v⟩ := p
          rw [wfV, Bool.and_eq_true] at hwf
          have hwfv : wfV v = true ∧ wfP ps = true := by
            have h2 := hwf.2
            rw [wfP, Bool.and_eq_true] at h2
            exact h2
          simp only [costV] at hcost
          have hs : serInd (.obj ((k, v) :: ps)) lvl ++ rest
              = lbrace :: (nlInd (lvl + 1) ++ (encodeString k ++ (':' :: ' ' ::
                (serInd v (lvl + 1) ++ (serItemsO ps (lvl + 1) ++
                  (nlInd lvl ++ (rbrace :: rest))))))) := by
            show (lbrace :: (nlInd (lvl + 1) ++ encodeString k ++ ':' :: ' ' ::
              serInd v (lvl + 1) ++ serItemsO ps (lvl + 1) ++ nlInd lvl ++
              [rbrace])) ++ rest = _
            simp
          rw [hs, parseVal_stepObj]
          have hsw : skipWs (nlInd (lvl + 1) ++ (encodeString k ++ (':' :: ' ' ::
              (serInd v (lvl + 1) ++ (serItemsO ps (lvl + 1) ++
                (nlInd lvl ++ (rbrace :: rest)))))))
              = '"' :: ((encodeChars k.data ++ ['"']) ++ (':' :: ' ' ::
                (serInd v (lvl + 1) ++ (serItemsO ps (lvl + 1) ++
                  (nlInd lvl ++ (rbrace :: rest)))))) := by
            rw [skipWs_append (wsOnly_nlInd _)]
            show skipWs ('"' :: ((encodeChars k.data ++ ['"']) ++ (':' :: ' ' ::
              (serInd v (lvl + 1) ++ (serItemsO ps (lvl + 1) ++
                (nlInd lvl ++ (rbrace :: rest))))))) = _
            rw [skipWs_not_ws (by decide)]
          rw [hsw]
          simp only [if_neg (show ¬ ('"' : Char) = rbrace by decide)]
          have hfold : ('"' :: ((encodeChars k.data ++ ['"']) ++ (':' :: ' ' ::
              (serInd v (lvl + 1) ++ (serItemsO ps (lvl + 1) ++
                (nlInd lvl ++ (rbrace :: rest)))))))
              = [] ++ (encodeString k ++ (':' :: ' ' :: (serInd v (lvl + 1) ++
                (serItemsO ps (lvl + 1) ++ (nlInd lvl ++ (rbrace :: rest)))))) := by
            simp [encodeString]
          rw [hfold]
          have hgoal := IHO [] k v ps (lvl + 1) lvl [] rest wsOnly_nil hwfv.1
            hwfv.2 (by rw [List.nil_append]; exact hwf.1) (by omega)
          rw [List.nil_append] at hgoal
          exact hgoal
    · -- the items of a non-empty array
      intro w x xs lvl L acc rest hw hx hxs hcost
      simp only [costL] at hcost
      have hPV : parseVal f (w ++ (serInd x lvl ++ (serItemsA xs lvl ++
          (nlInd L ++ (']' :: rest)))))
          = some (x, serItemsA xs lvl ++ (nlInd L ++ (']' :: rest))) :=
        IHP w x lvl _ hw hx (okAfter_serItemsA xs lvl L rest) (by omega)
      cases xs with
      | nil =>
        have hsw : skipWs (serItemsA [] lvl ++ (nlInd L ++ (']' :: rest)))
            = ']' :: rest := by
          show skipWs (nlInd L ++ (']' :: rest)) = ']' :: rest
          rw [skipWs_append (wsOnly_nlInd _), skipWs_not_ws (by decide)]
        simp only [parseItemsA, hPV, hsw,
          if_neg (show ¬ (']' : Char) = ',' by decide),
          if_pos (rfl : (']' : Char) = ']')]
        simp
      | cons y ys =>
        rw [wfL, Bool.and_eq_true] at hxs
        have hsw : skipWs (serItemsA (y :: ys) lvl ++ (nlInd L ++ (']' :: rest)))
            = ',' :: ((nlInd lvl ++ serInd y lvl ++ serItemsA ys lvl) ++
              (nlInd L ++ (']' :: rest))) := by
          show skipWs (',' :: ((nlInd lvl ++ serInd y lvl ++ serItemsA ys lvl) ++
            (nlInd L ++ (']' :: rest)))) = _
          rw [skipWs_not_ws (by decide)]
        have hind := IHA (nlInd lvl) y ys lvl L (acc ++ [x]) rest
          (wsOnly_nlInd _) hxs.1 hxs.2 (by omega)
        have harr : nlInd lvl ++ (serInd y lvl ++ (serItemsA ys lvl ++
            (nlInd L ++ (']' :: rest))))
            = (nlInd lvl ++ serInd y lvl ++ serItemsA ys lvl) ++
              (nlInd L ++ (']' :: rest)) := by simp
        rw [harr] at hind
        simp only [parseItemsA, hPV, hsw,
          if_pos (rfl : (',' : Char) = ','), hind]
        simp
    · -- the members of a non-empty object
      intro w k v kvs lvl L acc rest hw hv hkvs hnd hcost
      simp only [costP] at hcost
      have hsw1 : skipWs (w ++ (encodeString k ++ (':' :: ' ' :: (serInd v lvl ++
          (serItemsO kvs lvl ++ (nlInd L ++ (rbrace :: rest)))))))
          = '"' :: ((encodeChars k.data ++ ['"']) ++ (':' :: ' ' :: (serInd v lvl ++
            (serItemsO kvs lvl ++ (nlInd L ++ (rbrace :: rest)))))) := by
        rw [skipWs_append hw]
        show skipWs ('"' :: ((encodeChars k.data ++ ['"']) ++ (':' :: ' ' ::
          (serInd v lvl ++ (serItemsO kvs lvl ++ (nlInd L ++ (rbrace :: rest)))))))
          = _
        rw [skipWs_not_ws (by decide)]
      have hkey : parseStrRest ((encodeChars k.data ++ ['"']) ++ (':' :: ' ' ::
          (serInd v lvl ++ (serItemsO kvs lvl ++ (nlInd L ++ (rbrace :: rest))))))
          = some (k.data, ':' :: ' ' :: (serInd v lvl ++ (serItemsO kvs lvl ++
            (nlInd L ++ (rbrace :: rest))))) := by
        rw [List.append_assoc, List.singleton_append]
        exact parseStrRest_encodeChars k.data _
      have hsw2 : skipWs (':' :: ' ' :: (serInd v lvl ++ (serItemsO kvs lvl ++
          (nlInd L ++ (rbrace :: rest)))))
          = ':' :: ' ' :: (serInd v lvl ++ (serItemsO kvs lvl ++
            (nlInd L ++ (rbrace :: rest)))) :=
        skipWs_not_ws (by decide) _
      have hPV : parseVal f (' ' :: (serInd v lvl ++ (serItemsO kvs lvl ++
          (nlInd L ++ (rbrace :: rest)))))
          = some (v, serItemsO kvs lvl ++ (nlInd L ++ (rbrace :: rest))) :=
        IHP [' '] v lvl _ wsOnly_space hv (okAfter_serItemsO kvs lvl L rest)
          (by omega)
      have hkacc : k ∉ acc.map Prod.fst := nodup_head_not_mem hnd
      cases kvs with
      | nil =>
        have hsw3 : skipWs (serItemsO [] lvl ++ (nlInd L ++ (rbrace :: rest)))
            = rbrace :: rest := by
          show skipWs (nlInd L ++ (rbrace :: rest)) = rbrace :: rest
          rw [skipWs_append (wsOnly_nlInd _), skipWs_not_ws (by decide)]
        simp only [parseItemsO, hsw1, if_pos (rfl : ('"' : Char) = '"'), hkey,
          hsw2, if_pos (rfl : (':' : Char) = ':'), hPV, hsw3,
          if_neg (show ¬ rbrace = ',' by decide),
          if_pos (rfl : rbrace = rbrace), mk_data]
        rw [updAssoc_append hkacc]
        simp
      | cons p2 ps2 =>
        obtain ⟨k2, v2⟩ := p2
        have hkv2 : wfV v2 = true ∧ wfP ps2 = true := by
          rw [wfP, Bool.and_eq_true] at hkvs
          exact hkvs
        have hsw3 : skipWs (serItemsO ((k2, v2) :: ps2) lvl ++
            (nlInd L ++ (rbrace :: rest)))
            = ',' :: ((nlInd lvl ++ encodeString k2 ++ ':' :: ' ' ::
              serInd v2 lvl ++ serItemsO ps2 lvl) ++
              (nlInd L ++ (rbrace :: rest))) := by
          show skipWs (',' :: ((nlInd lvl ++ encodeString k2 ++ ':' :: ' ' ::
            serInd v2 lvl ++ serItemsO ps2 lvl) ++
            (nlInd L ++ (rbrace :: rest)))) = _
          rw [skipWs_not_ws (by decide)]
        have hnd2 : nodupKeys ((acc ++ [(k, v)]) ++ (k2, v2) :: ps2) = true := by
          have : (acc ++ [(k, v)]) ++ (k2, v2) :: ps2
              = acc ++ (k, v) :: (k2, v2) :: ps2 := by simp
          rw [this]
          exact hnd
        have hind := IHO (nlInd lvl) k2 v2 ps2 lvl L (acc ++ [(k, v)]) rest
          (wsOnly_nlInd _) hkv2.1 hkv2.2 hnd2 (by omega)
        have harr : nlInd lvl ++ (encodeString k2 ++ (':' :: ' ' ::
            (serInd v2 lvl ++ (serItemsO ps2 lvl ++ (nlInd L ++ (rbrace :: rest))))))
            = (nlInd lvl ++ encodeString k2 ++ ':' :: ' ' :: serInd v2 lvl ++
              serItemsO ps2 lvl) ++ (nlInd L ++ (rbrace :: rest)) := by simp
        rw [harr] at hind
        simp only [parseItemsO, hsw1, if_pos (rfl : ('"' : Char) = '"'), hkey,
          hsw2, if_pos (rfl : (':' : Char) = ':'), hPV, hsw3,
          if_pos (rfl : (',' : Char) = ','), mk_data, updAssoc_append hkacc,
          hind]
        simp

/-! ## Fuel adequacy: the default fuel always suffices -/

mutual
theorem costV_le : ∀ (j : Json) (lvl : Nat), costV j ≤ (serInd j lvl).length
  | .null, _ => by simp [costV, serInd]
  | .bool b, _ => by
    cases b <;> (simp only [costV, serInd]; simp)
  | .num n, _ => by
    simp only [costV, serInd]
    obtain ⟨c, cs, heq, _⟩ := intRepr_head n
    rw [heq]
    simp
  | .str s, _ => by
    simp only [costV, serInd, encodeString]
    simp
  | .arr [], _ => by simp only [costV, serInd]; simp
  | .arr (x :: xs), lvl => by
    simp only [costV, costL, serInd]
    have h1 := costV_le x (lvl + 1)
    have h2 := costL_le xs (lvl + 1)
    simp only [List.cons_append, List.length_cons, List.length_append]
    omega
  | .obj [], _ => by simp only [costV, serInd]; simp
  | .obj ((k, v) :: kvs), lvl => by
    simp only [costV, costP, serInd]
    have h1 := costV_le v (lvl + 1)
    have h2 := costP_le kvs (lvl + 1)
    simp only [List.cons_append, List.length_cons, List.length_append]
    omega

theorem costL_le : ∀ (xs : List Json) (lvl : Nat),
    costL xs ≤ (serItemsA xs lvl).length
  | [], _ => by simp [costL, serItemsA]
  | x :: xs, lvl => by
    simp only [costL, serItemsA]
    have h1 := costV_le x lvl
    have h2 := costL_le xs lvl
    simp only [List.length_cons, List.length_append]
    omega

theorem costP_le : ∀ (kvs : List (String × Json)) (lvl : Nat),
    costP kvs ≤ (serItemsO kvs lvl).length
  | [], _ => by simp [costP, serItemsO]
  | (k, v) :: kvs, lvl => by
    simp only [costP, serItemsO]
    have h1 := costV_le v lvl
    have h2 := costP_le kvs lvl
    simp only [List.length_cons, List.length_append]
    omega
end

/-- Parsing back the exact text the script writes for a well-formed value
recovers its canonical (all objects key-sorted) form. -/
theorem parseJson_dumps {j : Json} (h : wfV j = true) :
    parseJson (String.mk (dumps j ++ ['\n'])) = some (canon j) := by
  unfold parseJson
  have hwf : wfV (canon j) = true := wfV_canon h
  have hcost : costV (canon j) ≤ (serInd (canon j) 0 ++ ['\n']).length := by
    rw [List.length_append]
    have := costV_le (canon j) 0
    omega
  have hp := (parse_serInd ((serInd (canon j) 0 ++ ['\n']).length + 1)).1 []
    (canon j) 0 ['\n'] wsOnly_nil hwf
    ⟨by decide, by decide, by decide, by decide⟩ (by omega)
  rw [List.nil_append] at hp
  show (match parseVal ((serInd (canon j) 0 ++ ['\n']).length + 1)
      (serInd (canon j) 0 ++ ['\n']) with
    | some (j, rest) => if skipWs rest = [] then some j else none
    | none => none) = some (canon j)
  rw [hp]
  rfl

/-! ## Every value the parser returns is well-formed -/

theorem parseNum_shape {cs : List Char} {j : Json} {rest : List Char}
    (h : parseNum cs = some (j, rest)) : ∃ n, j = Json.num n := by
  unfold parseNum at h
  split at h
  · exact absurd h (by simp)
  · rename_i c cs1
    by_cases hc : c = '-'
    · rw [if_pos hc] at h
      cases hp : parseUnsigned cs1 with
      | none => rw [hp] at h; exact absurd h (by simp)
      | some p =>
        rw [hp] at h
        simp only [Option.map] at h
        injection h with h1
        injection h1 with h2 h3
        exact ⟨_, h2.symm⟩
    · rw [if_neg hc] at h
      cases hp : parseUnsigned (c :: cs1) with
      | none => rw [hp] at h; exact absurd h (by simp)
      | some p =>
        rw [hp] at h
        simp only [Option.map] at h
        injection h with h1
        injection h1 with h2 h3
        exact ⟨_, h2.symm⟩

theorem wfL_append {acc : List Json} {v : Json} (ha : wfL acc = true)
    (hv : wfV v = true) : wfL (acc ++ [v]) = true := by
  rw [wfL_iff]
  intro x hx
  rcases List.mem_append.mp hx with hx | hx
  · exact wfL_iff.mp ha x hx
  · rcases List.mem_singleton.mp hx with rfl
    exact hv

theorem parse_wf : ∀ f : Nat,
    (∀ cs j rest, parseVal f cs = some (j, rest) → wfV j = true) ∧
    (∀ cs acc j rest, wfL acc = true →
      parseItemsA f cs acc = some (j, rest) → wfV j = true) ∧
    (∀ cs acc j rest, nodupKeys acc = true → wfP acc = true →
      parseItemsO f cs acc = some (j, rest) → wfV j = true) := by
  intro f
  induction f with
  | zero =>
    refine ⟨?_, ?_, ?_⟩
    · intro cs j rest h
      exact absurd h (by rw [parseVal]; simp)
    · intro cs acc j rest _ h
      exact absurd h (by rw [parseItemsA]; simp)
    · intro cs acc j rest _ _ h
      exact absurd h (by rw [parseItemsO]; simp)
  | succ f IH =>
    obtain ⟨IHP, IHA, IHO⟩ := IH
    refine ⟨?_, ?_, ?_⟩
    · intro cs j rest h
      rw [parseVal] at h
      split at h
      · exact absurd h (by simp)
      · rename_i c cs1 heq
        by_cases h1 : c = lbrace
        · rw [if_pos h1] at h
          split at h
          · exact absurd h (by simp)
          · rename_i c2 cs2 heq2
            by_cases h2 : c2 = rbrace
            · rw [if_pos h2] at h
              injection h with h3
              injection h3 with h4 h5
              rw [← h4]
              rfl
            · rw [if_neg h2] at h
              exact IHO _ [] _ _ rfl rfl h
        · rw [if_neg h1] at h
          by_cases h2 : c = '['
          · rw [if_pos h2] at h
            split at h
            · exact absurd h (by simp)
            · rename_i c2 cs2 heq2
              by_cases h3 : c2 = ']'
              · rw [if_pos h3] at h
                injection h with h4
                injection h4 with h5 h6
                rw [← h5]
                rfl
              · rw [if_neg h3] at h
                exact IHA _ [] _ _ rfl h
          · rw [if_neg h2] at h
            by_cases h3 : c = '"'
            · rw [if_pos h3] at h
              cases hps : parseStrRest cs1 with
              | none => rw [hps] at h; exact absurd h (by simp)
              | some p =>
                rw [hps] at h
                simp only [Option.map] at h
                injection h with h4
                injection h4 with h5 h6
                rw [← h5]
                rfl
            · rw [if_neg h3] at h
              by_cases h4 : c = 'n'
              · rw [if_pos h4] at h
                split at h
                · injection h with h5
                  injection h5 with h6 h7
                  rw [← h6]
                  rfl
                · exact absurd h (by simp)
              · rw [if_neg h4] at h
                by_cases h5 : c = 't'
                · rw [if_pos h5] at h
                  split at h
                  · injection h with h6
                    injection h6 with h7 h8
                    rw [← h7]
                    rfl
                  · exact absurd h (by simp)
                · rw [if_neg h5] at h
                  by_cases h6 : c = 'f'
                  · rw [if_pos h6] at h
                    split at h
                    · injection h with h7
                      injection h7 with h8 h9
                      rw [← h8]
                      rfl
                    · exact absurd h (by simp)
                  · rw [if_neg h6] at h
                    by_cases h7 : c = '-' ∨ isDigitChar c = true
                    · rw [if_pos h7] at h
                      obtain ⟨n, rfl⟩ := parseNum_shape h
                      rfl
                    · rw [if_neg h7] at h
                      exact absurd h (by simp)
    · intro cs acc j rest hacc h
      rw [parseItemsA] at h
      split at h
      · exact absurd h (by simp)
      · rename_i v cs1 heq
        have hv : wfV v = true := IHP _ _ _ heq
        split at h
        · exact absurd h (by simp)
        · rename_i c cs2 heq2
          by_cases hc : c = ','
          · rw [if_pos hc] at h
            exact IHA _ _ _ _ (wfL_append hacc hv) h
          · rw [if_neg hc] at h
            by_cases hc2 : c = ']'
            · rw [if_pos hc2] at h
              injection h with h5
              injection h5 with h6 h7
              rw [← h6]
              show wfL (acc ++ [v]) = true
              exact wfL_append hacc hv
            · rw [if_neg hc2] at h
              exact absurd h (by simp)
    · intro cs acc j rest hnd hacc h
      rw [parseItemsO] at h
      split at h
      · exact absurd h (by simp)
      · rename_i c cs1 heq
        by_cases hc : c = '"'
        · rw [if_pos hc] at h
          split at h
          · exact absurd h (by simp)
          · rename_i kchars cs2 heq2
            split at h
            · exact absurd h (by simp)
            · rename_i c2 cs3 heq3
              by_cases hc2 : c2 = ':'
              · rw [if_pos hc2] at h
                split at h
                · exact absurd h (by simp)
                · rename_i v cs4 heq4
                  have hv : wfV v = true := IHP _ _ _ heq4
                  split at h
                  · exact absurd h (by simp)
                  · rename_i c3 cs5 heq5
                    by_cases hc3 : c3 = ','
                    · rw [if_pos hc3] at h
                      exact IHO _ _ _ _ (nodupKeys_updAssoc hnd _ _)
                        (wfP_updAssoc hacc _ hv) h
                    · rw [if_neg hc3] at h
                      by_cases hc4 : c3 = rbrace
                      · rw [if_pos hc4] at h
                        injection h with h5
                        injection h5 with h6 h7
                        rw [← h6]
                        show (nodupKeys (updAssoc acc (String.mk kchars) v) &&
                          wfP (updAssoc acc (String.mk kchars) v)) = true
                        rw [Bool.and_eq_true]
                        exact ⟨nodupKeys_updAssoc hnd _ _,
                          wfP_updAssoc hacc _ hv⟩
                      · rw [if_neg hc4] at h
                        exact absurd h (by simp)
              · rw [if_neg hc2] at h
                exact absurd h (by simp)
        · rw [if_neg hc] at h
          exact absurd h (by simp)

theorem parseJson_wf {s : String} {j : Json} (h : parseJson s = some j) :
    wfV j = true := by
  unfold parseJson at h
  split at h
  · rename_i j' rest heq
    by_cases hr : skipWs rest = []
    · rw [if_pos hr] at h
      injection h with h1
      rw [← h1]
      exact (parse_wf _).1 _ _ _ heq
    · rw [if_neg hr] at h
      exact absurd h (by simp)
  · exact absurd h (by simp)

/-! ## Sorted association lists with equal lookups are equal -/

theorem lookup_mem : ∀ {l : List (String × Json)} {k : String} {v : Json},
    lookup l k = some v → (k, v) ∈ l
  | [], k, v, h => absurd h (by rw [lookup]; simp)
  | (k1, v1) :: t, k, v, h => by
    rw [lookup] at h
    by_cases hk : k1 = k
    · rw [if_pos hk] at h
      injection h with h1
      rw [← hk, h1]
      exact List.mem_cons_self _ _
    · rw [if_neg hk] at h
      exact List.mem_cons_of_mem _ (lookup_mem h)

theorem sorted_lookup_ext :
    ∀ {l1 l2 : List (String × Json)}, PairsSorted l1 → PairsSorted l2 →
      nodupKeys l1 = true → nodupKeys l2 = true →
      (∀ k, lookup l1 k = lookup l2 k) → l1 = l2
  | [], [], _, _, _, _, _ => rfl
  | [], (k2, v2) :: t2, _, _, _, _, hl => by
    have h2 := hl k2
    rw [lookup, lookup, if_pos rfl] at h2
    exact absurd h2 (by simp)
  | (k1, v1) :: t1, [], _, _, _, _, hl => by
    have h1 := hl k1
    rw [lookup, lookup, if_pos rfl] at h1
    exact absurd h1 (by simp)
  | (k1, v1) :: t1, (k2, v2) :: t2, hs1, hs2, hn1, hn2, hl => by
    rw [PairsSorted, List.pairwise_cons] at hs1 hs2
    have hk : k1 = k2 := by
      by_contra hne
      have hm2 : (k1, v1) ∈ t2 := by
        have h1 := hl k1
        rw [lookup, if_pos rfl, lookup, if_neg (fun he => hne he.symm)] at h1
        exact lookup_mem h1.symm
      have hm1 : (k2, v2) ∈ t1 := by
        have h2 := hl k2
        rw [lookup, if_neg hne, lookup, if_pos rfl] at h2
        exact lookup_mem h2
      have hle1 : keyLe (k2, v2) (k1, v1) = true := hs2.1 _ hm2
      have hle2 : keyLe (k1, v1) (k2, v2) = true := hs1.1 _ hm1
      unfold keyLe at hle1 hle2
      simp only [Bool.not_eq_true'] at hle1 hle2
      exact hne (strLt_eq_of_not_lt hle1 hle2)
    subst hk
    have hv : v1 = v2 := by
      have h1 := hl k1
      rw [lookup, if_pos rfl, lookup, if_pos rfl] at h1
      injection h1
    subst hv
    have hn1' := nodupKeys_cons_iff.mp hn1
    have hn2' := nodupKeys_cons_iff.mp hn2
    have htl : ∀ k, lookup t1 k = lookup t2 k := by
      intro k
      by_cases hk : k = k1
      · subst hk
        rw [lookup_eq_none_iff.mpr hn1'.1, lookup_eq_none_iff.mpr hn2'.1]
      · have h1 := hl k
        rw [lookup, if_neg (fun he => hk he.symm), lookup,
          if_neg (fun he => hk he.symm)] at h1
        exact h1
    rw [sorted_lookup_ext hs1.2 hs2.2 hn1'.2 hn2'.2 htl]

/-- Two maps with no duplicate keys whose lookups agree up to `canon`
serialize to the same text. -/
theorem dumps_obj_ext {d1 d2 : List (String × Json)}
    (hn1 : nodupKeys d1 = true) (hn2 : nodupKeys d2 = true)
    (hl : ∀ k, lookup d2 k = Option.map canon (lookup d1 k)) :
    dumps (.obj d2) = dumps (.obj d1) := by
  unfold dumps
  show serInd (.obj (sortPairs (canonP d2))) 0 = serInd (.obj (sortPairs (canonP d1))) 0
  have heq : sortPairs (canonP d2) = sortPairs (canonP d1) := by
    refine sorted_lookup_ext (sortPairs_sorted _) (sortPairs_sorted _)
      (nodupKeys_sortPairs (nodupKeys_canonP hn2))
      (nodupKeys_sortPairs (nodupKeys_canonP hn1)) ?_
    intro k
    rw [lookup_sortPairs (nodupKeys_canonP hn2) k,
      lookup_sortPairs (nodupKeys_canonP hn1) k,
      lookup_canonP, lookup_canonP, hl k]
    cases lookup d1 k with
    | none => rfl
    | some v =>
      show some (canon (canon v)) = some (canon v)
      rw [canon_idem]
  rw [heq]

/-! ## Facts about `loadDict`, `mergeLoop` and `run` -/

theorem loadDict_wf {fs : FS} {path : String} {kvs : List (String × Json)}
    (h : loadDict fs path = .ok kvs) :
    nodupKeys kvs = true ∧ wfP kvs = true := by
  unfold loadDict at h
  split at h
  · injection h with h1
    rw [← h1]
    exact ⟨rfl, rfl⟩
  · rename_i content heq
    split at h
    · exact absurd h (by simp)
    · rename_i kvs' hkvs
      injection h with h1
      rw [← h1]
      have hwf := parseJson_wf hkvs
      rw [wfV, Bool.and_eq_true] at hwf
      exact hwf
    · exact absurd h (by simp)

theorem loadDict_err {fs : FS} {path : String} {e : Err}
    (h : loadDict fs path = .error e) : e ≠ Err.invalidArguments := by
  unfold loadDict at h
  split at h
  · exact absurd h (by simp)
  · split at h
    · injection h with h1
      rw [← h1]
      exact fun hc => nomatch hc
    · exact absurd h (by simp)
    · injection h with h1
      rw [← h1]
      exact fun hc => nomatch hc

theorem loadDict_allStr {fs : FS} {path : String} {kvs : List (String × Json)}
    (hgood : ∀ s, fs path = some s →
      ∃ kvs', parseJson s = some (.obj kvs') ∧ allStr kvs')
    (h : loadDict fs path = .ok kvs) : allStr kvs := by
  unfold loadDict at h
  split at h
  · injection h with h1
    rw [← h1]
    exact fun p hp => nomatch hp
  · rename_i content heq
    obtain ⟨kvs', hp, hstr⟩ := hgood content heq
    rw [hp] at h
    injection h with h1
    rw [← h1]
    exact hstr

theorem nodupKeys_mergeLoop (argv : List String)
    {d : List (String × Json)} (h : nodupKeys d = true) :
    nodupKeys (mergeLoop argv d) = true := by
  unfold mergeLoop
  generalize List.range' 2 ((argv.length - 1) / 2) 2 = is
  induction is generalizing d with
  | nil => exact h
  | cons i is ih => exact ih (nodupKeys_updAssoc h _ _)

theorem wfP_mergeLoop (argv : List String)
    {d : List (String × Json)} (h : wfP d = true) :
    wfP (mergeLoop argv d) = true := by
  unfold mergeLoop
  generalize List.range' 2 ((argv.length - 1) / 2) 2 = is
  induction is generalizing d with
  | nil => exact h
  | cons i is ih => exact ih (wfP_updAssoc h _ (by rw [wfV]))

theorem allStr_mergeLoop (argv : List String)
    {d : List (String × Json)} (h : allStr d) :
    allStr (mergeLoop argv d) := by
  unfold mergeLoop
  generalize List.range' 2 ((argv.length - 1) / 2) 2 = is
  induction is generalizing d with
  | nil => exact h
  | cons i is ih => exact ih (allStr_updAssoc h _ _)

/-- Complete case analysis of one run of the script. -/
theorem run_cases (argv : List String) (fs : FS) :
    ((argv.length % 2 ≠ 0 ∨ argv.length < 4) ∧
      run argv fs = (fs, some .invalidArguments)) ∨
    ((argv.length % 2 = 0 ∧ 4 ≤ argv.length) ∧
      ((∃ e, loadDict fs (filePath (argv.getD 1 "")) = .error e ∧
          e ≠ Err.invalidArguments ∧ run argv fs = (fs, some e)) ∨
        (∃ d0, loadDict fs (filePath (argv.getD 1 "")) = .ok d0 ∧
          run argv fs = (fun p => if p = filePath (argv.getD 1 "") then
            some (String.mk (dumps (Json.obj (mergeLoop argv d0)) ++ ['\n']))
            else fs p, none)))) := by
  by_cases h : argv.length % 2 ≠ 0 ∨ argv.length < 4
  · refine Or.inl ⟨h, ?_⟩
    unfold run
    rw [if_pos h]
  · refine Or.inr ⟨by omega, ?_⟩
    cases hld : loadDict fs (filePath (argv.getD 1 "")) with
    | error e =>
      refine Or.inl ⟨e, rfl, loadDict_err hld, ?_⟩
      unfold run
      rw [if_neg h]
      show (match loadDict fs (filePath (argv.getD 1 "")) with
        | Except.error e => (fs, some e)
        | Except.ok d0 =>
          (fun p => if p = filePath (argv.getD 1 "") then
            some (String.mk (dumps (Json.obj (mergeLoop argv d0)) ++ ['
']))
            else fs p, none)) = (fs, some e)
      rw [hld]
    | ok d0 =>
      refine Or.inr ⟨d0, rfl, ?_⟩
      unfold run
      rw [if_neg h]
      show (match loadDict fs (filePath (argv.getD 1 "")) with
        | Except.error e => (fs, some e)
        | Except.ok d0 =>
          (fun p => if p = filePath (argv.getD 1 "") then
            some (String.mk (dumps (Json.obj (mergeLoop argv d0)) ++ ['
']))
            else fs p, none)) = _
      rw [hld]

theorem keys_strict_sorted {l : List (String × Json)} (hs : PairsSorted l)
    (hn : nodupKeys l = true) :
    List.Pairwise (fun a b : String => strLt a b = true) (l.map Prod.fst) := by
  rw [List.pairwise_map]
  have hne : List.Pairwise (fun p q : String × Json => p.1 ≠ q.1) l := by
    have h2 : List.Pairwise (fun a b : String => a ≠ b) (l.map Prod.fst) :=
      nodupKeys_iff.mp hn
    rw [List.pairwise_map] at h2
    exact h2
  refine (hs.and hne).imp ?_
  rintro p q ⟨hle, hne2⟩
  unfold keyLe at hle
  rw [Bool.not_eq_true'] at hle
  by_cases hlt : strLt p.1 q.1 = true
  · exact hlt
  · exact absurd (strLt_eq_of_not_lt (Bool.eq_false_iff.mpr hlt) hle) hne2

theorem lastAssign_eq_none {ps : List (String × String)} {k : String}
    (h : k ∉ ps.map Prod.fst) : lastAssign ps k = none := by
  induction ps with
  | nil => rfl
  | cons p ps ih =>
    rw [lastAssign, ih (fun hm => h (by simp [hm]))]
    rw [if_neg (fun he => h (by simp [he]))]

theorem loadDict_congr {fs1 fs2 : FS} {path : String}
    (h : fs1 path = fs2 path) : loadDict fs1 path = loadDict fs2 path := by
  unfold loadDict
  rw [h]

theorem loadDict_written {path : String} {fs : FS} {d1 : List (String × Json)}
    (hwf : wfV (Json.obj d1) = true) :
    loadDict (fun p => if p = path then
      some (String.mk (dumps (Json.obj d1) ++ ['\n'])) else fs p) path
      = .ok (sortPairs (canonP d1)) := by
  unfold loadDict
  have hbeta : (if path = path then
      some (String.mk (dumps (Json.obj d1) ++ ['\n'])) else fs path)
      = some (String.mk (dumps (Json.obj d1) ++ ['\n'])) := if_pos rfl
  show (match (if path = path then
      some (String.mk (dumps (Json.obj d1) ++ ['\n'])) else fs path) with
    | none => Except.ok []
    | some content =>
      match parseJson content with
      | none => Except.error Err.malformedExistingFile
      | some (.obj kvs) => Except.ok kvs
      | some _ => Except.error Err.typeError)
    = Except.ok (sortPairs (canonP d1))
  rw [hbeta]
  show (match parseJson (String.mk (dumps (Json.obj d1) ++ ['\n'])) with
    | none => Except.error Err.malformedExistingFile
    | some (.obj kvs) => Except.ok kvs
    | some _ => Except.error Err.typeError) = Except.ok (sortPairs (canonP d1))
  rw [parseJson_dumps hwf, canon]

/-! ## The claims -/

/-- C1. After every successful run with chain id `c` and an even,
non-empty trailing argument list, the target file holds exactly the
prior map (empty when the file was absent) updated with all supplied
pairs, serialized with sorted keys and 2-space indentation
(`dumps`) plus a single trailing newline. -/
theorem C1_written_content (prog c : String) (rest : List String) (fs : FS)
    (heven : rest.length % 2 = 0) (hne : rest ≠ [])
    (hok : (run (prog :: c :: rest) fs).2 = none) :
    ∃ d0, loadDict fs (filePath c) = Except.ok d0 ∧
      (run (prog :: c :: rest) fs).1 (filePath c) =
        some (String.mk
          (dumps (Json.obj (applyPairs d0 (toPairs rest))) ++ ['\n'])) := by
  have hlen : 1 ≤ rest.length := by
    cases rest with
    | nil => exact absurd rfl hne
    | cons a l => simp
  rcases run_cases (prog :: c :: rest) fs with ⟨hcond, hr⟩ | ⟨_, hcases⟩
  · simp only [List.length_cons] at hcond
    omega
  · rcases hcases with ⟨e, _, _, hr⟩ | ⟨d0, hld, hr⟩
    · rw [hr] at hok
      exact absurd hok (by simp)
    · refine ⟨d0, hld, ?_⟩
      rw [hr]
      show (if filePath c = filePath c then
        some (String.mk
          (dumps (Json.obj (mergeLoop (prog :: c :: rest) d0)) ++ ['\n']))
        else fs (filePath c)) = _
      rw [if_pos rfl, mergeLoop_eq_applyPairs prog c rest d0 heven]

theorem C1_witness :
    (["A", "0x1"] : List String).length % 2 = 0 ∧
    (["A", "0x1"] : List String) ≠ [] ∧
    (run ["p", "7", "A", "0x1"] (fun _ => none)).2 = none ∧
    ∃ d0, loadDict (fun _ => none) (filePath "7") = Except.ok d0 ∧
      (run ["p", "7", "A", "0x1"] (fun _ => none)).1 (filePath "7") =
        some (String.mk
          (dumps (Json.obj (applyPairs d0 (toPairs ["A", "0x1"]))) ++ ['\n'])) :=
  ⟨by decide, by decide, by decide,
    C1_written_content "p" "7" ["A", "0x1"] (fun _ => none)
      (by decide) (by decide) (by decide)⟩

/-- C2. The merge loop performs `AddressMap[name] = address` for each
pair in order: looking up any name after the merge returns the last
address supplied for it, and the prior binding when the name was not
supplied at all. -/
theorem C2_last_write_wins (prog c : String) (rest : List String)
    (heven : rest.length % 2 = 0) (d : List (String × Json)) (k : String) :
    lookup (mergeLoop (prog :: c :: rest) d) k =
      match lastAssign (toPairs rest) k with
      | some a => some (Json.str a)
      | none => lookup d k := by
  rw [mergeLoop_eq_applyPairs prog c rest d heven]
  exact lookup_applyPairs _ _ _

theorem C2_witness :
    (["A", "0x1", "A", "0x9", "B", "0x2"] : List String).length % 2 = 0 ∧
    lookup (mergeLoop ["p", "7", "A", "0x1", "A", "0x9", "B", "0x2"]
      [("C", Json.str "0xc")]) "A" = some (Json.str "0x9") ∧
    lookup (mergeLoop ["p", "7", "A", "0x1", "A", "0x9", "B", "0x2"]
      [("C", Json.str "0xc")]) "C" = some (Json.str "0xc") :=
  ⟨by decide,
    by
      rw [C2_last_write_wins "p" "7" ["A", "0x1", "A", "0x9", "B", "0x2"]
        (by decide) [("C", Json.str "0xc")] "A"]
      rfl,
    by
      rw [C2_last_write_wins "p" "7" ["A", "0x1", "A", "0x9", "B", "0x2"]
        (by decide) [("C", Json.str "0xc")] "C"]
      rfl⟩

/-- C3. The file written by every successful run parses back to a JSON
object whose keys are in strictly ascending code-point order, whatever
the order of the supplied pairs or of the prior file's keys. -/
theorem C3_keys_sorted (prog c : String) (rest : List String) (fs : FS)
    (hok : (run (prog :: c :: rest) fs).2 = none) :
    ∃ s kvs, (run (prog :: c :: rest) fs).1 (filePath c) = some s ∧
      parseJson s = some (.obj kvs) ∧
      List.Pairwise (fun a b : String => strLt a b = true)
        (kvs.map Prod.fst) := by
  rcases run_cases (prog :: c :: rest) fs with ⟨_, hr⟩ | ⟨_, hcases⟩
  · rw [hr] at hok
    exact absurd hok (by simp)
  · rcases hcases with ⟨e, _, _, hr⟩ | ⟨d0, hld, hr⟩
    · rw [hr] at hok
      exact absurd hok (by simp)
    · obtain ⟨hnd0, hwp0⟩ := loadDict_wf hld
      have hnd1 : nodupKeys (mergeLoop (prog :: c :: rest) d0) = true :=
        nodupKeys_mergeLoop _ hnd0
      have hwp1 : wfP (mergeLoop (prog :: c :: rest) d0) = true :=
        wfP_mergeLoop _ hwp0
      have hwf1 : wfV (Json.obj (mergeLoop (prog :: c :: rest) d0)) = true := by
        rw [wfV, Bool.and_eq_true]
        exact ⟨hnd1, hwp1⟩
      refine ⟨String.mk
          (dumps (Json.obj (mergeLoop (prog :: c :: rest) d0)) ++ ['\n']),
        sortPairs (canonP (mergeLoop (prog :: c :: rest) d0)), ?_, ?_, ?_⟩
      · rw [hr]
        show (if filePath c = filePath c then
          some (String.mk
            (dumps (Json.obj (mergeLoop (prog :: c :: rest) d0)) ++ ['\n']))
          else fs (filePath c)) = _
        rw [if_pos rfl]
      · exact parseJson_dumps hwf1
      · exact keys_strict_sorted (sortPairs_sorted _)
          (nodupKeys_sortPairs (nodupKeys_canonP hnd1))

theorem C3_witness :
    (run ["p", "7", "Z", "1", "A", "2"] (fun _ => none)).2 = none ∧
    ∃ s kvs, (run ["p", "7", "Z", "1", "A", "2"] (fun _ => none)).1
        (filePath "7") = some s ∧
      parseJson s = some (.obj kvs) ∧
      List.Pairwise (fun a b : String => strLt a b = true)
        (kvs.map Prod.fst) :=
  ⟨by decide,
    C3_keys_sorted "p" "7" ["Z", "1", "A", "2"] (fun _ => none) (by decide)⟩

/-- C4. `InvalidArguments` occurs exactly when the trailing argument
count after the chain id is odd or below one full pair (the chain id
alone included); every even count of at least one pair passes. -/
theorem C4_validation_iff (prog c : String) (rest : List String) (fs : FS) :
    (run (prog :: c :: rest) fs).2 = some Err.invalidArguments ↔
      (rest.length % 2 = 1 ∨ rest.length < 2) := by
  rcases run_cases (prog :: c :: rest) fs with ⟨hcond, hr⟩ | ⟨hcond, hcases⟩
  · rw [hr]
    simp only [List.length_cons] at hcond
    constructor
    · intro _
      omega
    · intro _
      rfl
  · simp only [List.length_cons] at hcond
    have hfalse : ¬ (rest.length % 2 = 1 ∨ rest.length < 2) := by omega
    rcases hcases with ⟨e, _, hne, hr⟩ | ⟨d0, _, hr⟩
    · rw [hr]
      constructor
      · intro hc
        injection hc with h1
        exact absurd h1 hne
      · intro hc
        exact absurd hc hfalse
    · rw [hr]
      constructor
      · intro hc
        exact absurd hc (by simp)
      · intro hc
        exact absurd hc hfalse

/-- C6. Every aborting run leaves the filesystem exactly as it was:
the write is the final operation, after validation, load and merge. -/
theorem C6_failure_preserves_fs (argv : List String) (fs : FS) (e : Err)
    (h : (run argv fs).2 = some e) : (run argv fs).1 = fs := by
  rcases run_cases argv fs with ⟨_, hr⟩ | ⟨_, ⟨e', _, _, hr⟩ | ⟨d0, _, hr⟩⟩
  · rw [hr]
  · rw [hr]
  · rw [hr] at h
    exact absurd h (by simp)

theorem C6_witness :
    (run ["p", "7", "A", "0x1", "B"] (fun _ => none)).2 =
      some Err.invalidArguments ∧
    (run ["p", "7", "A", "0x1", "B"] (fun _ => none)).1 = (fun _ => none) :=
  ⟨by decide,
    C6_failure_preserves_fs ["p", "7", "A", "0x1", "B"] (fun _ => none)
      Err.invalidArguments (by decide)⟩

/-- C5 counterexample. The claim says a run whose argument count
excluding the program name is even and at least 3 proceeds past
validation; with the four arguments `1 A 0x1 B` (count 4, even, ≥ 3) the
script nevertheless aborts with `InvalidArguments`, because the source
tests `len(sys.argv)`, which includes the program name. -/
theorem C5_counterexample :
    (["1", "A", "0x1", "B"] : List String).length % 2 = 0 ∧
    3 ≤ (["1", "A", "0x1", "B"] : List String).length ∧
    (run ("prog" :: ["1", "A", "0x1", "B"]) (fun _ => none)).2 =
      some Err.invalidArguments :=
  ⟨by decide, by decide, by decide⟩

/-- C5 (amended). The script proceeds past validation exactly when the
argument count excluding the program name is odd and at least 3
(equivalently: `len(sys.argv)` is even and at least 4); otherwise it
aborts with the message
`args must be chainid followed by pairs of contract name, contract address`. -/
theorem C5_validation_parity (prog : String) (args : List String) (fs : FS) :
    ((run (prog :: args) fs).2 = some Err.invalidArguments ↔
      ¬ (args.length % 2 = 1 ∧ 3 ≤ args.length)) ∧
    errMsg Err.invalidArguments =
      "args must be chainid followed by pairs of contract name, contract address" := by
  refine ⟨?_, rfl⟩
  rcases run_cases (prog :: args) fs with ⟨hcond, hr⟩ | ⟨hcond, hcases⟩
  · rw [hr]
    simp only [List.length_cons] at hcond
    constructor
    · intro _
      omega
    · intro _
      rfl
  · simp only [List.length_cons] at hcond
    have hval : args.length % 2 = 1 ∧ 3 ≤ args.length := by omega
    rcases hcases with ⟨e, _, hne, hr⟩ | ⟨d0, _, hr⟩
    · rw [hr]
      constructor
      · intro hc
        injection hc with h1
        exact absurd h1 hne
      · intro hc
        exact absurd hval hc
    · rw [hr]
      constructor
      · intro hc
        exact absurd hc (by simp)
      · intro hc
        exact absurd hval hc

/-- C7. Running the script twice with identical arguments from any
starting filesystem leaves, after the second run, exactly the
filesystem produced by the first run. -/
theorem C7_idempotent (prog c : String) (rest : List String) (fs : FS)
    (heven : rest.length % 2 = 0) (hne : rest ≠ []) :
    (run (prog :: c :: rest) ((run (prog :: c :: rest) fs).1)).1 =
      (run (prog :: c :: rest) fs).1 := by
  have hlen : 1 ≤ rest.length := by
    cases rest with
    | nil => exact absurd rfl hne
    | cons a l => simp
  rcases run_cases (prog :: c :: rest) fs with ⟨hcond, hr⟩ | ⟨_, hcases⟩
  · simp only [List.length_cons] at hcond
    omega
  · rcases hcases with ⟨e, _, _, hr⟩ | ⟨d0, hld, hr⟩
    · rw [hr]
      show (run (prog :: c :: rest) fs).1 = fs
      rw [hr]
    · obtain ⟨hnd0, hwp0⟩ := loadDict_wf hld
      have hnd1 : nodupKeys (mergeLoop (prog :: c :: rest) d0) = true :=
        nodupKeys_mergeLoop _ hnd0
      have hwp1 : wfP (mergeLoop (prog :: c :: rest) d0) = true :=
        wfP_mergeLoop _ hwp0
      have hwf1 : wfV (Json.obj (mergeLoop (prog :: c :: rest) d0)) = true := by
        rw [wfV, Bool.and_eq_true]
        exact ⟨hnd1, hwp1⟩
      rw [hr]
      show (run (prog :: c :: rest) (fun p =>
        if p = filePath ((prog :: c :: rest).getD 1 "") then
          some (String.mk
            (dumps (Json.obj (mergeLoop (prog :: c :: rest) d0)) ++ ['\n']))
        else fs p)).1 = _
      have hld2 := @loadDict_written
        (filePath ((prog :: c :: rest).getD 1 "")) fs _ hwf1
      rcases run_cases (prog :: c :: rest) (fun p =>
          if p = filePath ((prog :: c :: rest).getD 1 "") then
            some (String.mk
              (dumps (Json.obj (mergeLoop (prog :: c :: rest) d0)) ++ ['\n']))
          else fs p) with ⟨hcond2, hr2⟩ | ⟨_, hcases2⟩
      · simp only [List.length_cons] at hcond2
        omega
      · rcases hcases2 with ⟨e2, hld2e, _, hr2⟩ | ⟨d2, hld2o, hr2⟩
        · rw [hld2] at hld2e
          exact absurd hld2e (by simp)
        · rw [hld2] at hld2o
          injection hld2o with hd2
          rw [hr2]
          have hlook : ∀ k,
              lookup (mergeLoop (prog :: c :: rest)
                (sortPairs (canonP (mergeLoop (prog :: c :: rest) d0)))) k
              = Option.map canon
                  (lookup (mergeLoop (prog :: c :: rest) d0) k) := by
            intro k
            have hD1 : lookup (mergeLoop (prog :: c :: rest) d0) k
                = match lastAssign (toPairs rest) k with
                  | some a => some (Json.str a)
                  | none => lookup d0 k := by
              rw [mergeLoop_eq_applyPairs prog c rest _ heven]
              exact lookup_applyPairs _ _ _
            rw [mergeLoop_eq_applyPairs prog c rest _ heven,
              lookup_applyPairs]
            cases hLA : lastAssign (toPairs rest) k with
            | some a =>
              have hD1k : lookup (mergeLoop (prog :: c :: rest) d0) k
                  = some (Json.str a) := by
                rw [hD1, hLA]
              rw [hD1k]
              rfl
            | none =>
              rw [lookup_sortPairs (nodupKeys_canonP hnd1) k, lookup_canonP]
          have hnd2 : nodupKeys (mergeLoop (prog :: c :: rest)
              (sortPairs (canonP (mergeLoop (prog :: c :: rest) d0)))) = true :=
            nodupKeys_mergeLoop _
              (nodupKeys_sortPairs (nodupKeys_canonP hnd1))
          have hdumps : dumps (Json.obj (mergeLoop (prog :: c :: rest)
              (sortPairs (canonP (mergeLoop (prog :: c :: rest) d0)))))
              = dumps (Json.obj (mergeLoop (prog :: c :: rest) d0)) :=
            dumps_obj_ext hnd1 hnd2 hlook
          funext p
          by_cases hp : p = filePath ((prog :: c :: rest).getD 1 "")
          · show (if p = filePath ((prog :: c :: rest).getD 1 "") then
              some (String.mk
                (dumps (Json.obj (mergeLoop (prog :: c :: rest) d2)) ++ ['\n']))
              else _) = _
            rw [← hd2, if_pos hp]
            show _ = (if p = filePath ((prog :: c :: rest).getD 1 "") then
              some (String.mk
                (dumps (Json.obj (mergeLoop (prog :: c :: rest) d0)) ++ ['\n']))
              else fs p)
            rw [if_pos hp, hdumps]
          · show (if p = filePath ((prog :: c :: rest).getD 1 "") then
              some (String.mk
                (dumps (Json.obj (mergeLoop (prog :: c :: rest) d2)) ++ ['\n']))
              else (if p = filePath ((prog :: c :: rest).getD 1 "") then
                some (String.mk (dumps (Json.obj
                  (mergeLoop (prog :: c :: rest) d0)) ++ ['\n']))
                else fs p)) = _
            rw [if_neg hp]

theorem C7_witness :
    (["A", "0x1"] : List String).length % 2 = 0 ∧
    (["A", "0x1"] : List String) ≠ [] ∧
    (run ["p", "7", "A", "0x1"]
        ((run ["p", "7", "A", "0x1"] (fun _ => none)).1)).1 =
      (run ["p", "7", "A", "0x1"] (fun _ => none)).1 :=
  ⟨by decide, by decide,
    C7_idempotent "p" "7" ["A", "0x1"] (fun _ => none) (by decide) (by decide)⟩

/-- C8. From an initially file-less state, every filesystem reachable
by successful runs satisfies the invariant: each present file parses as
a flat JSON object whose values are all strings. -/
theorem C8_reachable_invariant {fs : FS} (hre : Reachable fs) :
    ∀ p s, fs p = some s →
      ∃ kvs, parseJson s = some (.obj kvs) ∧ allStr kvs := by
  induction hre with
  | base =>
    intro p s hs
    exact absurd hs (by simp)
  | @step fs0 fs' argv hre2 hrun ih =>
    intro p s hs
    rcases run_cases argv fs0 with ⟨_, hr⟩ | ⟨_, hcases⟩
    · rw [hr] at hrun
      injection hrun with h1 h2
      exact absurd h2 (by simp)
    · rcases hcases with ⟨e, _, _, hr⟩ | ⟨d0, hld, hr⟩
      · rw [hr] at hrun
        injection hrun with h1 h2
        exact absurd h2 (by simp)
      · rw [hr] at hrun
        injection hrun with h1 h2
        rw [← h1] at hs
        have hs2 : (if p = filePath (argv.getD 1 "") then
            some (String.mk (dumps (Json.obj (mergeLoop argv d0)) ++ ['\n']))
            else fs0 p) = some s := hs
        obtain ⟨hnd0, hwp0⟩ := loadDict_wf hld
        have hstr0 : allStr d0 :=
          loadDict_allStr (fun s2 hf => ih _ s2 hf) hld
        by_cases hp : p = filePath (argv.getD 1 "")
        · rw [if_pos hp] at hs2
          injection hs2 with h3
          have hnd1 := nodupKeys_mergeLoop argv hnd0
          have hwf1 : wfV (Json.obj (mergeLoop argv d0)) = true := by
            rw [wfV, Bool.and_eq_true]
            exact ⟨hnd1, wfP_mergeLoop argv hwp0⟩
          refine ⟨sortPairs (canonP (mergeLoop argv d0)), ?_, ?_⟩
          · rw [← h3]
            exact parseJson_dumps hwf1
          · exact allStr_perm_subset (fun q hq => (sortPairs_perm _).subset hq)
              (allStr_canonP (allStr_mergeLoop argv hstr0))
        · rw [if_neg hp] at hs2
          exact ih p s hs2

theorem C8_witness :
    Reachable (run ["p", "7", "A", "0x1"] (fun _ => none)).1 ∧
    ((run ["p", "7", "A", "0x1"] (fun _ => none)).1 (filePath "7")).isSome ∧
    ∀ s, (run ["p", "7", "A", "0x1"] (fun _ => none)).1 (filePath "7") = some s →
      ∃ kvs, parseJson s = some (.obj kvs) ∧ allStr kvs := by
  have hre : Reachable (run ["p", "7", "A", "0x1"] (fun _ => none)).1 :=
    Reachable.step Reachable.base
      (by
        show run ["p", "7", "A", "0x1"] (fun _ => none) = (_, none)
        refine Prod.ext rfl ?_
        decide)
  exact ⟨hre, by decide,
    fun s hs => C8_reachable_invariant hre (filePath "7") s hs⟩

/-- C9. No schema validation is performed on the loaded file: any file
whose content parses as a JSON object is accepted, whatever its values,
the run succeeds, the merged map is serialized back, and every entry
whose name was not among the supplied pairs keeps exactly its prior
value. -/
theorem C9_no_schema_validation (prog c : String) (rest : List String)
    (fs : FS) (s : String) (kvs : List (String × Json))
    (heven : rest.length % 2 = 0) (hne : rest ≠ [])
    (hfile : fs (filePath c) = some s)
    (hparse : parseJson s = some (.obj kvs)) :
    (run (prog :: c :: rest) fs).2 = none ∧
    (run (prog :: c :: rest) fs).1 (filePath c) =
      some (String.mk (dumps (Json.obj (mergeLoop (prog :: c :: rest) kvs))
        ++ ['\n'])) ∧
    ∀ k, k ∉ (toPairs rest).map Prod.fst →
      lookup (mergeLoop (prog :: c :: rest) kvs) k = lookup kvs k := by
  have hlen : 1 ≤ rest.length := by
    cases rest with
    | nil => exact absurd rfl hne
    | cons a l => simp
  have hld : loadDict fs (filePath ((prog :: c :: rest).getD 1 "")) =
      .ok kvs := by
    show loadDict fs (filePath c) = .ok kvs
    unfold loadDict
    rw [hfile]
    show (match parseJson s with
      | none => Except.error Err.malformedExistingFile
      | some (.obj kvs) => Except.ok kvs
      | some _ => Except.error Err.typeError) = Except.ok kvs
    rw [hparse]
  have hpres : ∀ k, k ∉ (toPairs rest).map Prod.fst →
      lookup (mergeLoop (prog :: c :: rest) kvs) k = lookup kvs k := by
    intro k hk
    rw [mergeLoop_eq_applyPairs prog c rest _ heven, lookup_applyPairs,
      lastAssign_eq_none hk]
  rcases run_cases (prog :: c :: rest) fs with ⟨hcond, hr⟩ | ⟨_, hcases⟩
  · simp only [List.length_cons] at hcond
    omega
  · rcases hcases with ⟨e, hlde, _, hr⟩ | ⟨d0, hldo, hr⟩
    · rw [hld] at hlde
      exact absurd hlde (by simp)
    · rw [hld] at hldo
      injection hldo with hd0
      refine ⟨by rw [hr], ?_, hpres⟩
      rw [hr]
      show (if filePath c = filePath c then
        some (String.mk
          (dumps (Json.obj (mergeLoop (prog :: c :: rest) d0)) ++ ['\n']))
        else fs (filePath c)) = _
      rw [if_pos rfl, ← hd0]

def c9str : String := "\x7b\"N\": [1, true, null], \"A\": \"0x1\"\x7d"

def c9fs : FS := fun p => if p = "addresses/9.json" then some c9str else none

def c9kvs : List (String × Json) :=
  [("N", .arr [.num 1, .bool true, .null]), ("A", .str "0x1")]

theorem C9_witness :
    (["B", "0x2"] : List String).length % 2 = 0 ∧
    c9fs (filePath "9") = some c9str ∧
    parseJson c9str = some (.obj c9kvs) ∧
    (run ["p", "9", "B", "0x2"] c9fs).2 = none ∧
    lookup (mergeLoop ["p", "9", "B", "0x2"] c9kvs) "N" = lookup c9kvs "N" := by
  refine ⟨by decide, by rfl, by rfl, ?_, ?_⟩
  · exact (C9_no_schema_validation "p" "9" ["B", "0x2"] c9fs c9str c9kvs
      (by decide) (by decide) (by rfl) (by rfl)).1
  · exact (C9_no_schema_validation "p" "9" ["B", "0x2"] c9fs c9str c9kvs
      (by decide) (by decide) (by rfl) (by rfl)).2.2 "N" (by decide)

theorem run_congr {argv : List String} {fs1 fs2 : FS}
    (h : fs1 (filePath (argv.getD 1 "")) = fs2 (filePath (argv.getD 1 ""))) :
    (run argv fs1).2 = (run argv fs2).2 ∧
    (run argv fs1).1 (filePath (argv.getD 1 "")) =
      (run argv fs2).1 (filePath (argv.getD 1 "")) := by
  have hld := @loadDict_congr fs1 fs2 (filePath (argv.getD 1 "")) h
  rcases run_cases argv fs1 with ⟨hc1, hr1⟩ | ⟨hc1, hcases1⟩
  · rcases run_cases argv fs2 with ⟨_, hr2⟩ | ⟨hc2, _⟩
    · rw [hr1, hr2]
      exact ⟨rfl, h⟩
    · exact absurd hc1 (by omega)
  · rcases run_cases argv fs2 with ⟨hc2, _⟩ | ⟨_, hcases2⟩
    · exact absurd hc2 (by omega)
    · rcases hcases1 with ⟨e1, hl1, _, hr1⟩ | ⟨d1, hl1, hr1⟩ <;>
        rcases hcases2 with ⟨e2, hl2, _, hr2⟩ | ⟨d2, hl2, hr2⟩
      · rw [hl1, hl2] at hld
        injection hld with he
        rw [hr1, hr2, he]
        exact ⟨rfl, h⟩
      · rw [hl1, hl2] at hld
        exact absurd hld (by simp)
      · rw [hl1, hl2] at hld
        exact absurd hld (by simp)
      · rw [hl1, hl2] at hld
        injection hld with hd
        rw [hr1, hr2, hd]
        refine ⟨rfl, ?_⟩
        show (if filePath (argv.getD 1 "") = filePath (argv.getD 1 "") then
          some (String.mk (dumps (Json.obj (mergeLoop argv d2)) ++ ['\n']))
          else fs1 (filePath (argv.getD 1 ""))) =
          (if filePath (argv.getD 1 "") = filePath (argv.getD 1 "") then
          some (String.mk (dumps (Json.obj (mergeLoop argv d2)) ++ ['\n']))
          else fs2 (filePath (argv.getD 1 "")))
        rw [if_pos rfl, if_pos rfl]

/-- C10. The target path is the unsanitized concatenation
`addresses/ + chainId + .json`; a run touches the filesystem only at
that path and reads only it, so the chain id `../x` makes the script
read and write `addresses/../x.json`, which resolves to `x.json`,
outside the `addresses` directory. -/
theorem C10_unsanitized_path :
    (∀ c : String, filePath c = "addresses/" ++ c ++ ".json") ∧
    (∀ (argv : List String) (fs : FS) (p : String),
      p ≠ filePath (argv.getD 1 "") → (run argv fs).1 p = fs p) ∧
    (∀ (argv : List String) (fs1 fs2 : FS),
      fs1 (filePath (argv.getD 1 "")) = fs2 (filePath (argv.getD 1 "")) →
      (run argv fs1).2 = (run argv fs2).2 ∧
      (run argv fs1).1 (filePath (argv.getD 1 "")) =
        (run argv fs2).1 (filePath (argv.getD 1 ""))) ∧
    normalizePath (filePath "../x") = "x.json" ∧
    List.isPrefixOf "addresses/".data (normalizePath (filePath "../x")).data
      = false := by
  refine ⟨fun c => rfl, ?_, fun argv fs1 fs2 h => run_congr h, ?_, ?_⟩
  · intro argv fs p hp
    rcases run_cases argv fs with ⟨_, hr⟩ | ⟨_, ⟨e, _, _, hr⟩ | ⟨d0, _, hr⟩⟩
    · rw [hr]
    · rw [hr]
    · rw [hr]
      show (if p = filePath (argv.getD 1 "") then
        some (String.mk (dumps (Json.obj (mergeLoop argv d0)) ++ ['\n']))
        else fs p) = fs p
      rw [if_neg hp]
  · decide
  · decide

theorem C10_witness :
    "other.json" ≠ filePath ((["p", "../x", "A", "0x1"] : List String).getD 1 "") ∧
    (run ["p", "../x", "A", "0x1"] (fun _ => none)).1 "other.json" = none :=
  ⟨by decide,
    C10_unsanitized_path.2.1 ["p", "../x", "A", "0x1"] (fun _ => none)
      "other.json" (by decide)⟩

end UpdateAddresses
